import Mathlib

namespace Xpldd

/-- Mirrors `class Binary`: registered name, dependency entries (`DT_NEEDED`
values, overwritten in place by resolution), and the own rpath entries
(`DT_RPATH` values). -/
structure Binary where
  name : String
  depends : List String
  rpath : List String
deriving Repr, DecidableEq

/-- The registry `map<string, Binary*>`: association list from path key to
the stored pointer (`none` models a null `Binary*`). -/
abbrev Registry := List (String × Option Binary)

/-- `map::find`-style lookup: `none` = key absent, `some none` = key present
holding a null pointer, `some (some b)` = key present holding a record. -/
def lookupR : Registry → String → Option (Option Binary)
  | [], _ => none
  | (k, v) :: rest, q => if k = q then some v else lookupR rest q

/-- `map[k] = v` assignment: replaces the mapped value if the key is present,
otherwise inserts the pair. -/
def insertR : Registry → String → Option Binary → Registry
  | [], k, v => [(k, v)]
  | (k', v') :: rest, k, v =>
    if k' = k then (k', v) :: rest else (k', v') :: insertR rest k v

/-- `map.count k` as used in the cycle guard of `process_file` (0 or 1). -/
def containsKey (r : Registry) (k : String) : Bool :=
  (lookupR r k).isSome

/-- `map::operator[] k` read: returns the mapped pointer, value-initializing
a missing key to a null pointer (this is the mutation performed by the
"read-only" traversals at lines 206, 231 and 277 of the source). -/
def bracketGet (r : Registry) (k : String) : Option Binary × Registry :=
  match lookupR r k with
  | some v => (v, r)
  | none => (none, r ++ [(k, none)])

/-- One dynamic-section entry as classified by the `switch (dyn->d_tag)` in
`handle_dynamic`: a `DT_NEEDED` string, a `DT_RPATH` string, or any other
tag (ignored). -/
inductive DynEntry
  | needed (s : String)
  | rpath (s : String)
  | other
deriving Repr, DecidableEq

/-- Outcome of reading one dynamic section in `handle_dynamic`:
* `ok es`: every entry was read (`gelf_getdyn` never failed); returns true.
* `truncated es`: `gelf_getdyn` failed mid-loop; the entries read before the
  failure are kept, the loop `break`s, and `handle_dynamic` returns true.
* `badHeader`: `elf_getshdrstrndx`, `elf_getdata` or the glink
  `gelf_getshdr` failed; nothing is read and `handle_dynamic` returns
  false. -/
inductive ScanResult
  | ok (es : List DynEntry)
  | truncated (es : List DynEntry)
  | badHeader
deriving Repr, DecidableEq

/-- One section met by the `elf_nextscn` loop in `process_file`:
* `dynamic r`: an `SHT_DYNAMIC` section handled by `handle_dynamic`;
* `shdrFail`: `gelf_getshdr` returned null for this section, which makes
  `process_file` `goto err1` (abandoning the whole scan);
* `other`: any section of another type (skipped). -/
inductive Section
  | dynamic (r : ScanResult)
  | shdrFail
  | other
deriving Repr, DecidableEq

/-- What opening a path through libelf yields:
`noFile` = `open` fails; `notElf` = `elf_kind` is not `ELF_K_ELF`;
`elf ss` = an ELF file whose section walk meets `ss` in order. -/
inductive FileView
  | noFile
  | notElf
  | elf (sections : List Section)
deriving Repr, DecidableEq

/-- The external environment: the libelf view of each path and the
`filesystem::exists` predicate used by `resolve_symbol`. -/
structure Fs where
  view : String → FileView
  fsExists : String → Bool

/-- Per-invocation configuration (the configuration half of `XplddState`):
`pfx` is the `-P` string (field `_` + the usual name for a path
pre-string), `origRpath` the `-R` entries, `recurse`/`tree` the `-n`/`-t`
flags. -/
structure Config where
  pfx : String := ""
  origRpath : List String := []
  recurse : Bool := true
  tree : Bool := false

/-- `name[0] == '/'` on a `std::string` (on the empty string, C++ yields the
null character and Lean a default character; neither is a slash). -/
def startsWithSlash (s : String) : Bool :=
  match s.data with
  | [] => false
  | c :: _ => c = '/'

/-- `std::filesystem::path` `operator/` for the shapes that occur here
(the right operand never starts with a slash when joined). -/
def pathJoin (d n : String) : String :=
  if d = "" then n
  else if d.data.getLast? = some '/' then d ++ n
  else d ++ "/" ++ n

/-- The search loop of `resolve_symbol` (lines 70-77): first candidate
`(pfx ++ entry) / name` that exists, in entry order. -/
def resolveLoop (ex : String → Bool) (nm pfx : String) : List String → Option String
  | [] => none
  | r :: rs =>
    let full := pathJoin (pfx ++ r) nm
    if ex full then some full else resolveLoop ex nm pfx rs

/-- `resolve_symbol` (lines 65-79): an absolute name is returned unchanged;
otherwise the first existing candidate is returned, else the name itself. -/
def resolve_symbol (ex : String → Bool) (nm : String) (rpaths : List String) (pfx : String) : String :=
  if startsWithSlash nm then nm
  else
    match resolveLoop ex nm pfx rpaths with
    | some p => p
    | none => nm

/-- The entry loop of `handle_dynamic` (lines 102-118): collect `DT_NEEDED`
strings into `_depends` and `DT_RPATH` strings into `_rpath`, in file
order. -/
def collectEntries : List DynEntry → List String × List String
  | [] => ([], [])
  | e :: es =>
    let p := collectEntries es
    match e with
    | .needed s => (s :: p.1, p.2)
    | .rpath s => (p.1, s :: p.2)
    | .other => p

/-- `handle_dynamic` on one dynamic section: the collected entries plus the
boolean it returns.  A `truncated` read keeps the entries already read and
still returns true (the `break` at line 107 is followed by `return true`);
only a `badHeader` failure returns false. -/
def readDynSection : ScanResult → List String × List String × Bool
  | .ok es => ((collectEntries es).1, (collectEntries es).2, true)
  | .truncated es => ((collectEntries es).1, (collectEntries es).2, true)
  | .badHeader => ([], [], false)

/-- The section-scan loop of `process_file` (lines 146-160): `none` models
the `goto err1` taken when `gelf_getshdr` fails for a section (no record is
registered in that case); otherwise the concatenated dependency and rpath
entries plus the conjunction of the `handle_dynamic` results (`false` means
`failed` was set). -/
def scanSections : List Section → Option (List String × List String × Bool)
  | [] => some ([], [], true)
  | .shdrFail :: _ => none
  | .other :: ss => scanSections ss
  | .dynamic r :: ss =>
    match scanSections ss with
    | none => none
    | some (ds, rs, ok) =>
      let t := readDynSection r
      some (t.1 ++ ds, t.2.1 ++ rs, (t.2.2 && ok))

/-- The dependency loop of `process_file` (lines 173-194) over the already
resolved dependency values.  `pf` is the recursive `process_file` at the
next smaller fuel.  With recursion on: skip non-absolute values, skip
values already present as registry keys (cycle guard), otherwise recurse
(the boolean of the recursive result is discarded, as at line 185).  With
recursion off: register a skeleton record for every value, unconditionally
overwriting any present entry (line 192 has no presence check).  The third
component is the concatenated trace of paths the recursive calls were
invoked on (ghost instrumentation: one entry per `process_file`
activation). -/
def depLoop (pf : Registry → String → Option (Bool × Registry × List String))
    (recurse : Bool) : Registry → List String → Option (Registry × List String)
  | r, [] => some (r, [])
  | r, sym :: rest =>
    if recurse then
      if startsWithSlash sym = false then depLoop pf recurse r rest
      else if containsKey r sym then depLoop pf recurse r rest
      else
        match pf r sym with
        | none => none
        | some (_, r', clog) =>
          match depLoop pf recurse r' rest with
          | none => none
          | some (r'', log) => some (r'', clog ++ log)
    else
      depLoop pf recurse (insertR r sym (some ⟨sym, [], []⟩)) rest

/-- `process_file` (lines 122-200), fuel-indexed.  Returns
`(returned boolean, final registry, trace of processed paths)`.

The source inserts the record pointer at line 162 and afterwards overwrites
`_depends[i]` in place through that pointer; since resolution is a pure
function of the oracle and the combined rpath list (both fixed before the
loop), and no content of the entry is read between the insertion and the
end of the loop (the cycle guard reads only key presence), the embedding
inserts the fully resolved record at the same program point.  If a skeleton
assignment later overwrites this key (possible only when the file depends
on itself and recursion is off), the entry is not restored, exactly as the
pointer map behaves. -/
def processFile (fs : Fs) (cfg : Config) : Nat → Registry → String → Option (Bool × Registry × List String)
  | 0, _, _ => none
  | Nat.succ n, r, file =>
    match fs.view file with
    | .noFile => some (false, r, [file])
    | .notElf => some (false, r, [file])
    | .elf sections =>
      match scanSections sections with
      | none => some (false, r, [file])
      | some (ds, rs, scanOk) =>
        let combined := cfg.origRpath ++ rs
        let rds := ds.map (fun d => resolve_symbol fs.fsExists d combined cfg.pfx)
        let r1 := insertR r file (some ⟨file, rds, rs⟩)
        match depLoop (processFile fs cfg n) cfg.recurse r1 rds with
        | none => none
        | some (r2, log) => some (scanOk, r2, file :: log)

/-- `set<string>::insert`: the accumulator is kept as a duplicate-free list
sorted ascending.  The comparison is the lexicographic order on the
character lists, which agrees with the order on `String`
(`String.lt_iff_toList_lt`) and with the byte-wise `std::string` order. -/
def setInsert (x : String) : List String → List String
  | [] => [x]
  | y :: ys =>
    if x.data < y.data then x :: y :: ys
    else if x = y then y :: ys
    else y :: setInsert x ys

/-- `gather_flat_deps` (lines 202-211) merged with its per-node dependency
loop: the first list argument is the `_depends` list of the node being
visited, `acc` the `set<string>` accumulator.  Every dependency value is
inserted and, when the `operator[]` lookup yields a record, descended into
unconditionally (the source never consults the accumulator before
descending). -/
def gatherGo : Nat → Registry → List String → List String → Option (List String × Registry)
  | 0, _, _, _ => none
  | Nat.succ _, r, [], acc => some (acc, r)
  | Nat.succ n, r, d :: ds, acc =>
    let acc' := setInsert d acc
    match bracketGet r d with
    | (none, r') => gatherGo n r' ds acc'
    | (some next, r') =>
      match gatherGo n r' next.depends acc' with
      | none => none
      | some (acc'', r'') => gatherGo n r'' ds acc''

/-- `print_tree_deps` (lines 222-236) merged with its dependency loop: the
walk is started on the `_depends` of the root at depth 0 (the root itself prints
nothing), and entering the record of a dependency at depth `d+1` first emits the
line `(d+1, record name)` and then the own walk of that record.  Output lines are
modeled as (indentation depth, printed name) pairs. -/
def treeGo : Nat → Registry → List String → Nat → Option (List (Nat × String) × Registry)
  | 0, _, _, _ => none
  | Nat.succ _, r, [], _ => some ([], r)
  | Nat.succ n, r, d :: ds, depth =>
    match bracketGet r d with
    | (none, r') => treeGo n r' ds depth
    | (some next, r') =>
      match treeGo n r' next.depends (depth + 1) with
      | none => none
      | some (o1, r'') =>
        match treeGo n r'' ds depth with
        | none => none
        | some (o2, r3) => some (((depth + 1, next.name) :: o1) ++ o2, r3)

/-- One getopt option cluster (an argv element starting with `-`).  Handles
the option string `"R:P:nt"`: `n` and `t` are flags, `R` and `P` take an
argument (the rest of the cluster if nonempty, else the following argv
element).  Returns the updated configuration and, when the cluster ended in
`R` or `P` with nothing after it, that letter (its argument is the next
argv element); `none` models getopt returning `?` for an unknown option,
which makes `main` print usage and return 1. -/
def parseCluster : List Char → Config → Option (Config × Option Char)
  | [], cfg => some (cfg, none)
  | c :: cs, cfg =>
    if c = 'n' then parseCluster cs { cfg with recurse := false }
    else if c = 't' then parseCluster cs { cfg with tree := true }
    else if c = 'R' then
      match cs with
      | [] => some (cfg, some 'R')
      | _ => some ({ cfg with origRpath := cfg.origRpath ++ [String.mk cs] }, none)
    else if c = 'P' then
      match cs with
      | [] => some (cfg, some 'P')
      | _ => some ({ cfg with pfx := String.mk cs }, none)
    else none

/-- Apply an option letter that took the following argv element as its
argument. -/
def applyOptArg (c : Char) (v : String) (cfg : Config) : Config :=
  if c = 'R' then { cfg with origRpath := cfg.origRpath ++ [v] }
  else if c = 'P' then { cfg with pfx := v }
  else cfg

/-- Is this argv element an option cluster for getopt (starts with `-`, is
not the lone `-`, and is not the terminator `--`)? -/
def isOptArg (a : String) : Bool :=
  match a.data with
  | '-' :: _ :: _ => true
  | _ => false

/-- The getopt loop of `main` (lines 244-262) with GNU permutation:
non-option arguments are collected as operands and scanning continues; `--`
ends option scanning; an unknown option or missing option argument yields
`none` (usage error). -/
def parseArgs : List String → Config → List String → Option (Config × List String)
  | [], cfg, pos => some (cfg, pos)
  | a :: rest, cfg, pos =>
    if a = "--" then some (cfg, pos ++ rest)
    else if isOptArg a then
      match parseCluster (a.data.drop 1) cfg with
      | none => none
      | some (cfg', none) => parseArgs rest cfg' pos
      | some (cfg', some c) =>
        match rest with
        | [] => none
        | b :: rest2 => parseArgs rest2 (applyOptArg c b cfg') pos
    else parseArgs rest cfg (pos ++ [a])

/-- The per-input batch loop of `main` (lines 269-287): for each operand,
count it (`_done++`), run `process_file` (counting `_failed++` on a false
return), look the operand up with `operator[]` (inserting a null entry when
`process_file` registered nothing), and, when the pointer is not null, run
the flat or tree view, whose registry mutations persist.  Returns
`(done, failed, final registry, concatenated process trace)`. -/
def runInputs (fs : Fs) (cfg : Config) (fuel : Nat) : Registry → List String → Option (Nat × Nat × Registry × List String)
  | r, [] => some (0, 0, r, [])
  | r, name :: rest =>
    match processFile fs cfg fuel r name with
    | none => none
    | some (ok, r1, log) =>
      let fail1 : Nat := if ok then 0 else 1
      match bracketGet r1 name with
      | (none, r2) =>
        match runInputs fs cfg fuel r2 rest with
        | none => none
        | some (d, f, r', log') => some (d + 1, f + fail1, r', log ++ log')
      | (some bin, r2) =>
        let walked :=
          if cfg.tree then
            match treeGo fuel r2 bin.depends 0 with
            | none => none
            | some (_, r3) => some r3
          else
            match gatherGo fuel r2 bin.depends [] with
            | none => none
            | some (_, r3) => some r3
        match walked with
        | none => none
        | some r3 =>
          match runInputs fs cfg fuel r3 rest with
          | none => none
          | some (d, f, r', log') => some (d + 1, f + fail1, r', log ++ log')

/-- `main` (lines 238-301): parse the arguments (exit 1 on a getopt error or
when no operand remains), run the batch loop, and select the exit code by
the `_failed`/`_done` comparison at lines 295-300. -/
def xplddMain (fs : Fs) (fuel : Nat) (args : List String) : Option Nat :=
  match parseArgs args {} [] with
  | none => some 1
  | some (cfg, inputs) =>
    if inputs.isEmpty then some 1
    else
      match runInputs fs cfg fuel [] inputs with
      | none => none
      | some (done, failed, _, _) =>
        some (if failed = done then 3 else if failed ≠ 0 then 2 else 0)

/-- Modelled from the spec resolver contract (section 4.1): an absolute name
is returned unchanged; otherwise the first candidate
`(pre-string ++ entry) / name` that exists, in entry order, else the name
itself.  Stated with `List.find?` so that the claim theorem compares the
search loop of the source against the declarative first-match description. -/
def specResolve (ex : String → Bool) (nm : String) (rpaths : List String) (pfx : String) : String :=
  if startsWithSlash nm then nm
  else
    match rpaths.find? (fun e => ex (pathJoin (pfx ++ e) nm)) with
    | some e => pathJoin (pfx ++ e) nm
    | none => nm

/-- Whether processing this path is reported failed, as a pure function of
the oracle: open failure, wrong ELF kind, a section-header read failure, or
any dynamic section whose header read failed.  Lemma
`processFile_ok_eq` shows the returned boolean of `process_file` is exactly
the negation of this (it is independent of the registry because recursive
results are discarded at line 185). -/
def fileFails (fs : Fs) (p : String) : Bool :=
  match fs.view p with
  | .noFile => true
  | .notElf => true
  | .elf ss =>
    match scanSections ss with
    | none => true
    | some (_, _, ok) => !ok

/-- Modelled from the spec exit-code table (section 6): 1 on usage error or
no operand, else 0 / 2 / 3 by whether none / some / all inputs failed. -/
def specExitCode (fs : Fs) (args : List String) : Nat :=
  match parseArgs args {} [] with
  | none => 1
  | some (_, inputs) =>
    if inputs = [] then 1
    else
      let f := (inputs.filter (fun p => fileFails fs p)).length
      if f = inputs.length then 3 else if f = 0 then 0 else 2

/-- Relation between a registry and a later state of it produced by the
traversals: every present entry is untouched, and a previously absent key
is at most added as a null entry (the `operator[]` default insertion). -/
def NullExt (r r' : Registry) : Prop :=
  (∀ k v, lookupR r k = some v → lookupR r' k = some v) ∧
  (∀ k, lookupR r k = none → (lookupR r' k = none ∨ lookupR r' k = some none))

/-- The concrete registry produced by a concrete A→B→A cycle; used to close
hypotheses of `process_file_cycle_safe` on explicit input. -/
def fsCyc : Fs :=
  { view := fun p =>
      if p = "/a" then .elf [.dynamic (.ok [.needed "/b"])]
      else if p = "/b" then .elf [.dynamic (.ok [.needed "/a"])]
      else .noFile
    fsExists := fun _ => false }

/-- The registry the builder itself produces for the concrete cycle
`/a → /b → /a` (see `process_file_cycle_safe_witness`). -/
def regCyc : Registry :=
  [("/a", some ⟨"/a", ["/b"], []⟩), ("/b", some ⟨"/b", ["/a"], []⟩)]

/-- A dependency value reachable from a record by following `dependencies`
through the registry: either a direct dependency entry of the record, or a
value reachable from the record some dependency entry maps to. -/
inductive ReachDep (r : Registry) : Binary → String → Prop
  | here {b : Binary} {d : String} : d ∈ b.depends → ReachDep r b d
  | step {b : Binary} {d : String} {c : Binary} {v : String} :
      d ∈ b.depends → lookupR r d = some (some c) → ReachDep r c v → ReachDep r b v

/-- The same notion relativized to a dependency list (the part of the
`_depends` list of a node that the walk still has to process). -/
def ListReach (r : Registry) (ds : List String) (v : String) : Prop :=
  v ∈ ds ∨ ∃ d ∈ ds, ∃ c, lookupR r d = some (some c) ∧ ReachDep r c v

/-- A diamond-shaped registry (two paths from `/r` to `/d`). -/
def regDiamond : Registry :=
  [("/r", some ⟨"/r", ["/b", "/c"], []⟩), ("/b", some ⟨"/b", ["/d"], []⟩),
   ("/c", some ⟨"/c", ["/d"], []⟩), ("/d", some ⟨"/d", [], []⟩)]

/-- A registry with a dependency value that has no registry entry. -/
def regMut : Registry := [("/a", some ⟨"/a", ["/x"], []⟩)]

/-- Does this dependency value have a registry entry holding a record (the
condition under which the tree walk descends and prints)? -/
def isRecordKey (r : Registry) (d : String) : Bool :=
  match lookupR r d with
  | some (some _) => true
  | _ => false

/-- The edges leaving one node of the reachable dependency graph: its
dependency entries that lead to a registry record. -/
def outEdges (r : Registry) (k : String) : List String :=
  match lookupR r k with
  | some (some b) => b.depends.filter (fun d => isRecordKey r d)
  | _ => []

/-- One breadth step of the reachable-key closure. -/
def reachStep (r : Registry) (ks : List String) : List String :=
  (ks ++ ks.flatMap (outEdges r)).dedup

/-- Fuel-iterated reachable-key closure from a set of start keys. -/
def reachKeys (r : Registry) : Nat → List String → List String
  | 0, ks => ks
  | n + 1, ks => reachKeys r n (reachStep r ks)

/-- The number of edges in the reachable dependency graph from a root key. -/
def edgeCount (r : Registry) (fuel : Nat) (k : String) : Nat :=
  ((reachKeys r fuel [k]).map (fun q => (outEdges r q).length)).sum

/-- An acyclic registry in which `/b` is reachable from the root `/r` both
directly and through `/c`. -/
def regT : Registry :=
  [("/r", some ⟨"/r", ["/b", "/c"], []⟩), ("/b", some ⟨"/b", ["/d"], []⟩),
   ("/c", some ⟨"/c", ["/b"], []⟩), ("/d", some ⟨"/d", [], []⟩)]

/-- A rank function witnessing that the reachable graph of `regT` is
acyclic: every edge strictly increases the rank. -/
def rank9 (s : String) : Nat :=
  if s = "/r" then 0 else if s = "/c" then 1 else if s = "/b" then 2 else 3

/-- The nonempty descent paths from the dependency list of a node: for every
dependency entry leading to a registry record, the one-step path to it plus
the own paths of that record extended by the step.  Pure (fixed registry) and
fuel-indexed like the walk. -/
def depPaths : Nat → Registry → List String → Option (List (List String))
  | 0, _, _ => none
  | Nat.succ _, _, [] => some []
  | Nat.succ n, r, d :: ds =>
    match lookupR r d with
    | some (some next) =>
      match depPaths n r next.depends with
      | none => none
      | some ps1 =>
        match depPaths n r ds with
        | none => none
        | some ps2 => some (([d] :: ps1.map (fun p => d :: p)) ++ ps2)
    | _ => depPaths n r ds

/-- An ELF file whose section walk meets a section with an unreadable
header. -/
def fsShdr : Fs :=
  { view := fun p => if p = "/f" then .elf [.shdrFail] else .noFile
    fsExists := fun _ => false }

/-- An ELF whose first dynamic section has an unreadable header and whose
second dynamic section reads fine. -/
def fsBadHeader : Fs :=
  { view := fun p =>
      if p = "/f" then .elf [.dynamic .badHeader, .dynamic (.ok [.needed "x"])] else .noFile
    fsExists := fun _ => false }

/-- Two ELFs for the `-n` scenario: `/f` depends on `/g`, `/g` on `/x`. -/
def fsC8 : Fs :=
  { view := fun p =>
      if p = "/f" then .elf [.dynamic (.ok [.needed "/g"])]
      else if p = "/g" then .elf [.dynamic (.ok [.needed "/x"])]
      else .noFile
    fsExists := fun _ => false }

/-- The `-n` configuration (recursion disabled). -/
def cfgNoRec : Config := { recurse := false }

/-- A path whose scan reaches the registration point: it opens, is of ELF
kind, and its section headers are all readable (so the insertion at line
162 is executed). -/
def registrable (fs : Fs) (p : String) : Bool :=
  match fs.view p with
  | .elf ss => (scanSections ss).isSome
  | _ => false

/-- A single well-formed ELF with no dependencies. -/
def fsOne : Fs :=
  { view := fun p => if p = "/a" then .elf [] else .noFile
    fsExists := fun _ => false }

/-- Three operands for the exit-code scenario: two well-formed ELFs and one
path that fails to open. -/
def fs3 : Fs :=
  { view := fun p =>
      if p = "/ok1" then .elf [] else if p = "/ok2" then .elf [] else .noFile
    fsExists := fun _ => false }

/-! ## Theorems -/

/-!
Verification development for `xpldd` (cross-platform ELF ldd, `src/xpldd.cpp`).

The program is embedded shallowly:

* `Binary` mirrors the C++ `class Binary` (`_name`, `_depends`, `_rpath`).
  The declared field `_resolved` is never written nor read anywhere in the
  source, so it is not modeled.
* The registry `map<string, Binary*>` is modeled as an association list
  `List (String × Option Binary)`; the mapped value `Option Binary` models
  the `Binary*` pointer (`none` = null pointer).  `map::operator[]` on a
  missing key value-initializes the mapped pointer (to null), which
  `bracketGet` models by appending `(k, none)`.
* libelf (the external ELF reader capability) is abstracted by an oracle
  `Fs`: for each path it yields either an open failure, a wrong-ELF-kind
  answer, or the list of sections with their dynamic-entry read outcomes.
  `filesystem::exists` is the oracle field `fsExists`.
* All recursive C++ functions are embedded with an explicit fuel parameter
  (structural recursion on `Nat`), so every run of the model is a total
  computation; `none` means the fuel ran out before the walk returned.
-/

/-! ### Spec-side definitions

These follow the wording of the specification and are compared with the
source-derived definitions above by the claim theorems. -/

/-! ### Helper lemmas on the registry and the set accumulator -/

theorem lookupR_insertR_self (r : Registry) (k : String) (v : Option Binary) :
    lookupR (insertR r k v) k = some v := by
  induction r with
  | nil => simp [insertR, lookupR]
  | cons p rest ih =>
    obtain ⟨k', v'⟩ := p
    by_cases h : k' = k <;> simp [insertR, lookupR, h, ih]

theorem lookupR_insertR_ne (r : Registry) (k q : String) (v : Option Binary) (h : q ≠ k) :
    lookupR (insertR r k v) q = lookupR r q := by
  induction r with
  | nil =>
    have hk : ¬ k = q := fun hh => h hh.symm
    simp [insertR, lookupR, hk]
  | cons p rest ih =>
    obtain ⟨k', v'⟩ := p
    by_cases hk : k' = k
    · subst hk
      have hq : ¬ k' = q := fun hh => h hh.symm
      simp [insertR, lookupR, hq]
    · simp only [insertR, if_neg hk]
      by_cases hq : k' = q <;> simp [lookupR, hq, ih]

theorem lookupR_append_of_some (r l : Registry) (k : String) (v : Option Binary)
    (h : lookupR r k = some v) : lookupR (r ++ l) k = some v := by
  induction r with
  | nil => simp [lookupR] at h
  | cons p rest ih =>
    obtain ⟨k', v'⟩ := p
    by_cases hk : k' = k <;> simp_all [lookupR]

theorem lookupR_append_single_of_none (r : Registry) (d k : String) (x : Option Binary)
    (h : lookupR r k = none) :
    lookupR (r ++ [(d, x)]) k = if d = k then some x else none := by
  induction r with
  | nil => simp [lookupR]
  | cons p rest ih =>
    obtain ⟨k', v'⟩ := p
    by_cases hk : k' = k <;> simp_all [lookupR]

/-- The order on `String` in scope is the character-list order. -/
theorem string_lt_data (x y : String) : x < y ↔ x.data < y.data :=
  String.lt_iff_toList_lt

theorem mem_setInsert (x v : String) (s : List String) :
    v ∈ setInsert x s ↔ v = x ∨ v ∈ s := by
  induction s with
  | nil => simp [setInsert]
  | cons y ys ih =>
    by_cases h1 : x.data < y.data
    · rw [setInsert, if_pos h1]
      simp [List.mem_cons]
    · by_cases h2 : x = y
      · rw [setInsert, if_neg h1, if_pos h2]
        subst h2
        simp only [List.mem_cons]
        tauto
      · rw [setInsert, if_neg h1, if_neg h2]
        simp only [List.mem_cons, ih]
        tauto

theorem sorted_setInsert (x : String) (s : List String) (h : s.Sorted (· < ·)) :
    (setInsert x s).Sorted (· < ·) := by
  induction s with
  | nil => simp [setInsert]
  | cons y ys ih =>
    rw [List.sorted_cons] at h
    obtain ⟨hy, hys⟩ := h
    by_cases h1 : x.data < y.data
    · rw [setInsert, if_pos h1, List.sorted_cons]
      have hxy : x < y := (string_lt_data x y).mpr h1
      refine ⟨?_, by rw [List.sorted_cons]; exact ⟨hy, hys⟩⟩
      intro b hb
      rcases List.mem_cons.mp hb with rfl | hb
      · exact hxy
      · exact lt_trans hxy (hy b hb)
    · by_cases h2 : x = y
      · rw [setInsert, if_neg h1, if_pos h2, List.sorted_cons]
        exact ⟨hy, hys⟩
      · rw [setInsert, if_neg h1, if_neg h2, List.sorted_cons]
        refine ⟨?_, ih hys⟩
        intro b hb
        rcases (mem_setInsert x b ys).mp hb with rfl | hb
        · rcases lt_trichotomy b y with hlt | heq | hgt
          · exact absurd ((string_lt_data b y).mp hlt) h1
          · exact absurd heq h2
          · exact hgt
        · exact hy b hb

theorem NullExt.refl (r : Registry) : NullExt r r :=
  ⟨fun _ _ h => h, fun _ h => Or.inl h⟩

theorem NullExt.trans {r1 r2 r3 : Registry} (h12 : NullExt r1 r2) (h23 : NullExt r2 r3) :
    NullExt r1 r3 := by
  refine ⟨fun k v h => h23.1 k v (h12.1 k v h), fun k h => ?_⟩
  rcases h12.2 k h with h2 | h2
  · exact h23.2 k h2
  · exact Or.inr (h23.1 k none h2)

/-- A null-extension changes no descendable lookup: a key maps to a record
in the extension iff it does in the original registry. -/
theorem NullExt.descend {r r' : Registry} (h : NullExt r r') (d : String) (b : Binary) :
    lookupR r' d = some (some b) ↔ lookupR r d = some (some b) := by
  constructor
  · intro h'
    cases hr : lookupR r d with
    | none =>
      rcases h.2 d hr with h2 | h2 <;> rw [h2] at h' <;> simp at h'
    | some v =>
      have h3 := h.1 d v hr
      rw [h3] at h'
      injection h' with h4
      rw [h4]
  · intro h'
    exact h.1 d (some b) h'

/-- `operator[]` on a missing key produces exactly a null extension. -/
theorem nullExt_bracketGet (r : Registry) (d : String) :
    NullExt r (bracketGet r d).2 := by
  unfold bracketGet
  cases hd : lookupR r d with
  | some v => exact NullExt.refl r
  | none =>
    constructor
    · intro k v h
      exact lookupR_append_of_some r [(d, none)] k v h
    · intro k h
      rw [lookupR_append_single_of_none r d k none h]
      split <;> simp

theorem bracketGet_fst (r : Registry) (d : String) (b : Binary)
    (h : (bracketGet r d).1 = some b) : lookupR r d = some (some b) := by
  unfold bracketGet at h
  cases hd : lookupR r d with
  | some v => rw [hd] at h; simpa using congrArg some h
  | none => rw [hd] at h; simp at h

/-! ### C4: the resolver contract -/

theorem resolveLoop_eq_find (ex : String → Bool) (nm pfx : String) (rpaths : List String) :
    resolveLoop ex nm pfx rpaths =
      (rpaths.find? (fun e => ex (pathJoin (pfx ++ e) nm))).map
        (fun e => pathJoin (pfx ++ e) nm) := by
  induction rpaths with
  | nil => simp [resolveLoop]
  | cons r rs ih =>
    by_cases h : ex (pathJoin (pfx ++ r) nm) <;>
      simp [resolveLoop, List.find?, h, ih]

/-- C4.  Resolver contract: for every name, search-path list and path
pre-string, `resolve_symbol` returns an absolute name unchanged (never
searching), otherwise the first candidate `(pre-string ++ entry) / name`
that exists, tried in list order, and the original name when no candidate
exists — i.e. it coincides with the declarative first-match description
`specResolve` taken from the specification. -/
theorem resolve_symbol_meets_contract (ex : String → Bool) (nm : String)
    (rpaths : List String) (pfx : String) :
    resolve_symbol ex nm rpaths pfx = specResolve ex nm rpaths pfx := by
  unfold resolve_symbol specResolve
  by_cases h : startsWithSlash nm
  · simp [h]
  · simp only [h, Bool.false_eq_true, if_false, resolveLoop_eq_find]
    cases (rpaths.find? (fun e => ex (pathJoin (pfx ++ e) nm))) <;> simp

/-! ### C1: cycle safety of the graph builder -/

/-- C1.  Cycle safety: `process_file` registers a path right after its own
section scan and before any recursive descent, so for two distinct absolute
paths that declare each other as their sole dependency (a cycle A→B→A),
processing A terminates (with fuel 2, i.e. recursion depth 2) and the final
registry holds exactly one record for A and exactly one for B. -/
theorem process_file_cycle_safe (a b : String) (fs : Fs)
    (hab : a ≠ b)
    (ha : startsWithSlash a = true) (hb : startsWithSlash b = true)
    (hfa : fs.view a = .elf [.dynamic (.ok [.needed b])])
    (hfb : fs.view b = .elf [.dynamic (.ok [.needed a])]) :
    processFile fs {} 2 [] a =
      some (true, [(a, some ⟨a, [b], []⟩), (b, some ⟨b, [a], []⟩)], [a, b]) := by
  simp [processFile, hfa, hfb, scanSections, readDynSection, collectEntries,
    resolve_symbol, ha, hb, depLoop, containsKey, lookupR, insertR, hab, Config.recurse,
    Config.origRpath, Config.pfx]

/-- Witness for C1 at the concrete cycle `/a → /b → /a`. -/
theorem process_file_cycle_safe_witness :
    processFile fsCyc {} 2 [] "/a" =
      some (true, [("/a", some ⟨"/a", ["/b"], []⟩), ("/b", some ⟨"/b", ["/a"], []⟩)],
        ["/a", "/b"]) :=
  process_file_cycle_safe "/a" "/b" fsCyc (by decide) (by decide) (by decide) rfl rfl

/-! ### C2: the flat traversal does not terminate on a cycle -/

theorem gatherGo_regCyc_none :
    ∀ n acc, gatherGo n regCyc ["/a"] acc = none ∧ gatherGo n regCyc ["/b"] acc = none := by
  intro n
  induction n with
  | zero => intro _; exact ⟨rfl, rfl⟩
  | succ n ih =>
    intro acc
    have stepa : gatherGo (n + 1) regCyc ["/a"] acc =
        (match gatherGo n regCyc ["/b"] (setInsert "/a" acc) with
          | none => none
          | some (acc'', r'') => gatherGo n r'' [] acc'') := rfl
    have stepb : gatherGo (n + 1) regCyc ["/b"] acc =
        (match gatherGo n regCyc ["/a"] (setInsert "/b" acc) with
          | none => none
          | some (acc'', r'') => gatherGo n r'' [] acc'') := rfl
    constructor
    · rw [stepa, (ih (setInsert "/a" acc)).2]
    · rw [stepb, (ih (setInsert "/b" acc)).1]

/-- C2 (the code contradicts the claim).  `gather_flat_deps` inserts each
dependency value into the accumulator but never consults the accumulator
before descending (the result of `set::insert` at line 205 is discarded),
so on the registry the builder itself produces for the dependency cycle
`/a → /b → /a`, the flat walk started at the root record of `/a` fails to
terminate: it returns nothing at every fuel bound. -/
theorem gather_flat_diverges_on_cycle :
    processFile fsCyc {} 2 [] "/a" = some (true, regCyc, ["/a", "/b"]) ∧
    ∀ n, gatherGo n regCyc ["/b"] [] = none :=
  ⟨rfl, fun n => (gatherGo_regCyc_none n []).2⟩

/-! ### Reachability through the registry (spec section 4.3) -/

theorem reachDep_iff_listReach (r : Registry) (b : Binary) (v : String) :
    ReachDep r b v ↔ ListReach r b.depends v := by
  constructor
  · intro h
    cases h with
    | here hd => exact Or.inl hd
    | step hd hc hr => exact Or.inr ⟨_, hd, _, hc, hr⟩
  · intro h
    rcases h with h | ⟨d, hd, c, hc, hr⟩
    · exact ReachDep.here h
    · exact ReachDep.step hd hc hr

theorem listReach_nil (r : Registry) (v : String) : ¬ ListReach r [] v := by
  intro h
  rcases h with h | ⟨d, hd, _⟩
  · simp at h
  · simp at hd

theorem listReach_cons (r : Registry) (d : String) (ds : List String) (v : String) :
    ListReach r (d :: ds) v ↔
      (v = d ∨ ∃ c, lookupR r d = some (some c) ∧ ReachDep r c v) ∨ ListReach r ds v := by
  unfold ListReach
  simp only [List.mem_cons]
  constructor
  · rintro (h | ⟨d', hd', c, hc, hr⟩)
    · tauto
    · rcases hd' with rfl | hd'
      · exact Or.inl (Or.inr ⟨c, hc, hr⟩)
      · exact Or.inr (Or.inr ⟨d', hd', c, hc, hr⟩)
  · rintro ((h | ⟨c, hc, hr⟩) | (h | ⟨d', hd', c, hc, hr⟩))
    · tauto
    · exact Or.inr ⟨d, Or.inl rfl, c, hc, hr⟩
    · tauto
    · exact Or.inr ⟨d', Or.inr hd', c, hc, hr⟩

theorem nullExt_append_null (r : Registry) (d : String) (_hd : lookupR r d = none) :
    NullExt r (r ++ [(d, none)]) := by
  constructor
  · intro k v h
    exact lookupR_append_of_some r [(d, none)] k v h
  · intro k h
    rw [lookupR_append_single_of_none r d k none h]
    split <;> simp

/-- Main invariant of the flat walk: relative to the starting registry it
only null-extends the registry, preserves sortedness of the accumulator,
and the final accumulator holds exactly the initial entries plus the
dependency values reachable from the pending dependency list. -/
theorem gatherGo_inv (r0 : Registry) :
    ∀ n r ds acc out r', NullExt r0 r → gatherGo n r ds acc = some (out, r') →
      NullExt r0 r' ∧
      (acc.Sorted (· < ·) → out.Sorted (· < ·)) ∧
      (∀ v, v ∈ out ↔ v ∈ acc ∨ ListReach r0 ds v) := by
  intro n
  induction n with
  | zero => intro r ds acc out r' _ hrun; exact absurd hrun (by simp [gatherGo])
  | succ n ih =>
    intro r ds acc out r' hext hrun
    match ds with
    | [] =>
      have h : (some (acc, r) : Option (List String × Registry)) = some (out, r') := hrun
      injection h with h
      injection h with h1 h2
      subst h1; subst h2
      refine ⟨hext, fun hs => hs, fun v => ?_⟩
      simp [listReach_nil r0 v]
    | d :: ds =>
      have hcons : gatherGo (n + 1) r (d :: ds) acc =
          (match bracketGet r d with
            | (none, r2) => gatherGo n r2 ds (setInsert d acc)
            | (some next, r2) =>
              match gatherGo n r2 next.depends (setInsert d acc) with
              | none => none
              | some (acc'', r'') => gatherGo n r'' ds acc'') := rfl
      rw [hcons] at hrun
      cases hd : lookupR r d with
      | none =>
        have hb : bracketGet r d = (none, r ++ [(d, none)]) := by
          simp [bracketGet, hd]
        rw [hb] at hrun
        have hext2 : NullExt r0 (r ++ [(d, none)]) :=
          hext.trans (nullExt_append_null r d hd)
        obtain ⟨h1, h2, h3⟩ := ih _ ds (setInsert d acc) out r' hext2 hrun
        have hno : ∀ c : Binary, ¬ lookupR r0 d = some (some c) := by
          intro c hc
          have := (hext.descend d c).mpr hc
          rw [hd] at this
          cases this
        refine ⟨h1, fun hs => h2 (sorted_setInsert d acc hs), fun v => ?_⟩
        rw [h3 v, listReach_cons, mem_setInsert]
        constructor
        · rintro (h | h) <;> tauto
        · rintro (h | ((h | ⟨c, hc, _⟩) | h))
          · tauto
          · tauto
          · exact absurd hc (hno c)
          · tauto
      | some v0 =>
        have hb : bracketGet r d = (v0, r) := by
          simp [bracketGet, hd]
        rw [hb] at hrun
        cases v0 with
        | none =>
          obtain ⟨h1, h2, h3⟩ := ih r ds (setInsert d acc) out r' hext hrun
          have hno : ∀ c : Binary, ¬ lookupR r0 d = some (some c) := by
            intro c hc
            have := (hext.descend d c).mpr hc
            rw [hd] at this
            cases this
          refine ⟨h1, fun hs => h2 (sorted_setInsert d acc hs), fun v => ?_⟩
          rw [h3 v, listReach_cons, mem_setInsert]
          constructor
          · rintro (h | h) <;> tauto
          · rintro (h | ((h | ⟨c, hc, _⟩) | h))
            · tauto
            · tauto
            · exact absurd hc (hno c)
            · tauto
        | some next =>
          have hd0 : lookupR r0 d = some (some next) := (hext.descend d next).mp hd
          have hrun2 : (match gatherGo n r next.depends (setInsert d acc) with
              | none => none
              | some (acc'', r'') => gatherGo n r'' ds acc'') = some (out, r') := hrun
          cases hg1 : gatherGo n r next.depends (setInsert d acc) with
          | none =>
            rw [hg1] at hrun2
            exact Option.noConfusion hrun2
          | some p1 =>
            obtain ⟨acc1, r1⟩ := p1
            rw [hg1] at hrun2
            have hrun3 : gatherGo n r1 ds acc1 = some (out, r') := hrun2
            obtain ⟨h1a, h2a, h3a⟩ := ih r next.depends (setInsert d acc) acc1 r1 hext hg1
            obtain ⟨h1b, h2b, h3b⟩ := ih r1 ds acc1 out r' h1a hrun3
            have hcnext : ∀ v, (∃ c, lookupR r0 d = some (some c) ∧ ReachDep r0 c v) ↔
                ReachDep r0 next v := by
              intro v
              constructor
              · rintro ⟨c, hc, hr⟩
                rw [hd0] at hc
                injection hc with hc
                injection hc with hc
                subst hc
                exact hr
              · intro hr
                exact ⟨next, hd0, hr⟩
            refine ⟨h1b, fun hs => h2b (h2a (sorted_setInsert d acc hs)), fun v => ?_⟩
            rw [h3b v, h3a v, listReach_cons, mem_setInsert,
              ← reachDep_iff_listReach r0 next v, hcnext v]
            tauto

/-- If the flat walk still has to reach the own key of the root (which maps to
the root record), it never terminates: reaching the key descends back into
the root, which reaches the key again.  Contrapositively, a terminating
flat walk never lists the root key. -/
theorem gatherGo_no_root (r0 : Registry) (k : String) (root : Binary)
    (hk : lookupR r0 k = some (some root)) (hreach : ReachDep r0 root k) :
    ∀ n r ds acc, NullExt r0 r → ListReach r0 ds k → gatherGo n r ds acc = none := by
  intro n
  induction n with
  | zero => intro r ds acc _ _; rfl
  | succ n ih =>
    intro r ds acc hext hlr
    match ds with
    | [] => exact absurd hlr (listReach_nil r0 k)
    | d :: ds =>
      have hcons : gatherGo (n + 1) r (d :: ds) acc =
          (match bracketGet r d with
            | (none, r2) => gatherGo n r2 ds (setInsert d acc)
            | (some next, r2) =>
              match gatherGo n r2 next.depends (setInsert d acc) with
              | none => none
              | some (acc'', r'') => gatherGo n r'' ds acc'') := rfl
      rcases (listReach_cons r0 d ds k).mp hlr with (hkd | ⟨c, hc, hrc⟩) | htail
      · subst hkd
        have hd : lookupR r k = some (some root) := hext.1 _ _ hk
        have hb : bracketGet r k = (some root, r) := by simp [bracketGet, hd]
        rw [hcons, hb]
        show (match gatherGo n r root.depends (setInsert k acc) with
          | none => none
          | some (acc'', r'') => gatherGo n r'' ds acc'') = none
        rw [ih r root.depends (setInsert k acc) hext
          ((reachDep_iff_listReach r0 root k).mp hreach)]
      · have hd : lookupR r d = some (some c) := hext.1 _ _ hc
        have hb : bracketGet r d = (some c, r) := by simp [bracketGet, hd]
        rw [hcons, hb]
        show (match gatherGo n r c.depends (setInsert d acc) with
          | none => none
          | some (acc'', r'') => gatherGo n r'' ds acc'') = none
        rw [ih r c.depends (setInsert d acc) hext
          ((reachDep_iff_listReach r0 c k).mp hrc)]
      · cases hd : lookupR r d with
        | none =>
          have hb : bracketGet r d = (none, r ++ [(d, none)]) := by simp [bracketGet, hd]
          rw [hcons, hb]
          exact ih _ ds (setInsert d acc) (hext.trans (nullExt_append_null r d hd)) htail
        | some v0 =>
          cases v0 with
          | none =>
            have hb : bracketGet r d = (none, r) := by simp [bracketGet, hd]
            rw [hcons, hb]
            exact ih r ds (setInsert d acc) hext htail
          | some next =>
            have hb : bracketGet r d = (some next, r) := by simp [bracketGet, hd]
            rw [hcons, hb]
            show (match gatherGo n r next.depends (setInsert d acc) with
              | none => none
              | some (acc'', r'') => gatherGo n r'' ds acc'') = none
            cases hg1 : gatherGo n r next.depends (setInsert d acc) with
            | none => rfl
            | some p1 =>
              obtain ⟨acc1, r1⟩ := p1
              exact ih r1 ds acc1
                (gatherGo_inv r0 n r next.depends (setInsert d acc) acc1 r1 hext hg1).1 htail

/-- The tree walk, like the flat walk, only null-extends the registry. -/
theorem treeGo_nullExt (r0 : Registry) :
    ∀ n r ds depth out r', NullExt r0 r → treeGo n r ds depth = some (out, r') → NullExt r0 r' := by
  intro n
  induction n with
  | zero => intro r ds depth out r' _ hrun; exact absurd hrun (by simp [treeGo])
  | succ n ih =>
    intro r ds depth out r' hext hrun
    match ds with
    | [] =>
      have h : (some (([] : List (Nat × String)), r) : Option (List (Nat × String) × Registry)) =
          some (out, r') := hrun
      injection h with h
      injection h with h1 h2
      subst h2
      exact hext
    | d :: ds =>
      have hcons : treeGo (n + 1) r (d :: ds) depth =
          (match bracketGet r d with
            | (none, r2) => treeGo n r2 ds depth
            | (some next, r2) =>
              match treeGo n r2 next.depends (depth + 1) with
              | none => none
              | some (o1, r'') =>
                match treeGo n r'' ds depth with
                | none => none
                | some (o2, r3) => some (((depth + 1, next.name) :: o1) ++ o2, r3)) := rfl
      rw [hcons] at hrun
      cases hd : lookupR r d with
      | none =>
        have hb : bracketGet r d = (none, r ++ [(d, none)]) := by simp [bracketGet, hd]
        rw [hb] at hrun
        exact ih _ ds depth out r' (hext.trans (nullExt_append_null r d hd)) hrun
      | some v0 =>
        cases v0 with
        | none =>
          have hb : bracketGet r d = (none, r) := by simp [bracketGet, hd]
          rw [hb] at hrun
          exact ih r ds depth out r' hext hrun
        | some next =>
          have hb : bracketGet r d = (some next, r) := by simp [bracketGet, hd]
          rw [hb] at hrun
          have hrun2 : (match treeGo n r next.depends (depth + 1) with
              | none => none
              | some (o1, r'') =>
                match treeGo n r'' ds depth with
                | none => none
                | some (o2, r3) => some (((depth + 1, next.name) :: o1) ++ o2, r3)) =
              some (out, r') := hrun
          cases hg1 : treeGo n r next.depends (depth + 1) with
          | none => rw [hg1] at hrun2; exact Option.noConfusion hrun2
          | some p1 =>
            obtain ⟨o1, r1⟩ := p1
            rw [hg1] at hrun2
            have hrun3 : (match treeGo n r1 ds depth with
                | none => none
                | some (o2, r3) => some (((depth + 1, next.name) :: o1) ++ o2, r3)) =
                some (out, r') := hrun2
            have hext1 := ih r next.depends (depth + 1) o1 r1 hext hg1
            cases hg2 : treeGo n r1 ds depth with
            | none => rw [hg2] at hrun3; exact Option.noConfusion hrun3
            | some p2 =>
              obtain ⟨o2, r3⟩ := p2
              rw [hg2] at hrun3
              have h : some ((((depth + 1, next.name) :: o1) ++ o2), r3) = some (out, r') := hrun3
              injection h with h
              injection h with h1 h2
              subst h2
              exact ih r1 ds depth o2 r3 hext1 hg2

/-! ### C6: characterization of the flat listing -/

/-- C6.  Flat listing characterization: whenever the flat walk started on a
root record (present in the registry under key `k`) returns a listing, that
listing is sorted in ascending lexicographic order (hence duplicate-free),
contains exactly the dependency values reachable from the root by
following `dependencies` through the registry, and never contains the
own key of the root. -/
theorem flat_listing_characterization (r : Registry) (k : String) (root : Binary)
    (n : Nat) (out : List String) (r' : Registry)
    (hroot : lookupR r k = some (some root))
    (hrun : gatherGo n r root.depends [] = some (out, r')) :
    out.Sorted (· < ·) ∧ (∀ v, v ∈ out ↔ ReachDep r root v) ∧ k ∉ out := by
  obtain ⟨h1, h2, h3⟩ := gatherGo_inv r n r root.depends [] out r' (NullExt.refl r) hrun
  have hmem : ∀ v, v ∈ out ↔ ReachDep r root v := by
    intro v
    rw [h3 v, reachDep_iff_listReach]
    simp
  refine ⟨h2 List.sorted_nil, hmem, ?_⟩
  intro hk
  have hreach : ReachDep r root k := (hmem k).mp hk
  have hnone := gatherGo_no_root r k root hroot hreach n r root.depends []
    (NullExt.refl r) ((reachDep_iff_listReach r root k).mp hreach)
  rw [hnone] at hrun
  exact Option.noConfusion hrun

/-- Witness for C6 on the concrete diamond registry. -/
theorem flat_listing_characterization_witness :
    lookupR regDiamond "/r" = some (some ⟨"/r", ["/b", "/c"], []⟩) ∧
    ((["/b", "/c", "/d"] : List String).Sorted (· < ·) ∧
      (∀ v, v ∈ (["/b", "/c", "/d"] : List String) ↔
        ReachDep regDiamond ⟨"/r", ["/b", "/c"], []⟩ v) ∧
      "/r" ∉ (["/b", "/c", "/d"] : List String)) :=
  ⟨rfl, flat_listing_characterization regDiamond "/r" ⟨"/r", ["/b", "/c"], []⟩ 10
    ["/b", "/c", "/d"] regDiamond rfl rfl⟩

/-! ### C7: the walks are not read-only over the registry -/

/-- C7 (the code contradicts the claim).  Running either walk over `regMut`
does not leave the registry unchanged: the `operator[]` lookup of the
missing dependency value `/x` inserts a null entry under a new key. -/
theorem walks_mutate_registry :
    gatherGo 3 regMut ["/x"] [] = some (["/x"], regMut ++ [("/x", none)]) ∧
    treeGo 3 regMut ["/x"] 0 = some ([], regMut ++ [("/x", none)]) ∧
    lookupR regMut "/x" = none ∧
    lookupR (regMut ++ [("/x", none)]) "/x" = some none ∧
    regMut ++ [("/x", none)] ≠ regMut :=
  ⟨rfl, rfl, rfl, rfl, by decide⟩

/-- C7 (amended).  What the walks do preserve: every key present before the
walk still maps to the identical record afterwards (no record is modified
or removed), and any new key introduced by the walk maps to a null pointer
(`operator[]` default insertion for a dependency value that had no
entry). -/
theorem walks_only_null_extend (n : Nat) (r : Registry) (ds : List String) :
    (∀ acc out r', gatherGo n r ds acc = some (out, r') → NullExt r r') ∧
    (∀ depth out r', treeGo n r ds depth = some (out, r') → NullExt r r') :=
  ⟨fun acc out r' h => (gatherGo_inv r n r ds acc out r' (NullExt.refl r) h).1,
   fun depth out r' h => treeGo_nullExt r n r ds depth out r' (NullExt.refl r) h⟩

/-- Witness for the amended C7: the null extension produced on `regMut`. -/
theorem walks_only_null_extend_witness :
    NullExt regMut (regMut ++ [("/x", none)]) :=
  (walks_only_null_extend 3 regMut ["/x"]).1 [] ["/x"] (regMut ++ [("/x", none)]) rfl

/-! ### C9: tree listing line count -/

/-- C9 (the code contradicts the claim).  On the acyclic registry `regT`
(acyclicity witnessed by `rank9` strictly increasing along every reachable
edge), the tree listing for the root `/r` emits 5 lines while the
reachable dependency graph has 4 edges: the subtree of `/b` is printed once
per path to `/b`, so for an acyclic but not tree-shaped graph the line
count exceeds the edge count. -/
theorem tree_lines_exceed_edges :
    (∀ q ∈ reachKeys regT 4 ["/r"], ∀ d ∈ outEdges regT q, rank9 q < rank9 d) ∧
    treeGo 10 regT ["/b", "/c"] 0 =
      some ([(1, "/b"), (2, "/d"), (1, "/c"), (2, "/b"), (3, "/d")], regT) ∧
    ([(1, "/b"), (2, "/d"), (1, "/c"), (2, "/b"), (3, "/d")] : List (Nat × String)).length = 5 ∧
    edgeCount regT 4 "/r" = 4 :=
  ⟨by decide, rfl, rfl, rfl⟩

/-- C9 (amended).  The tree listing emits exactly one line per nonempty
descent path from the root through registry records, with line indentation
being the path length; the line count therefore equals the number of such
paths (which strictly exceeds the edge count as soon as some node is
reachable along two paths, as in `tree_lines_exceed_edges`). -/
theorem treeGo_counts_paths (r0 : Registry) :
    ∀ n r ds depth out r', NullExt r0 r → treeGo n r ds depth = some (out, r') →
      ∃ ps, depPaths n r0 ds = some ps ∧ out.length = ps.length ∧
        out.map Prod.fst = ps.map (fun p => depth + p.length) := by
  intro n
  induction n with
  | zero => intro r ds depth out r' _ hrun; exact absurd hrun (by simp [treeGo])
  | succ n ih =>
    intro r ds depth out r' hext hrun
    match ds with
    | [] =>
      have h : (some (([] : List (Nat × String)), r) : Option (List (Nat × String) × Registry)) =
          some (out, r') := hrun
      injection h with h
      injection h with h1 h2
      subst h1
      exact ⟨[], rfl, rfl, rfl⟩
    | d :: ds =>
      have hcons : treeGo (n + 1) r (d :: ds) depth =
          (match bracketGet r d with
            | (none, r2) => treeGo n r2 ds depth
            | (some next, r2) =>
              match treeGo n r2 next.depends (depth + 1) with
              | none => none
              | some (o1, r'') =>
                match treeGo n r'' ds depth with
                | none => none
                | some (o2, r3) => some (((depth + 1, next.name) :: o1) ++ o2, r3)) := rfl
      rw [hcons] at hrun
      cases hd : lookupR r d with
      | none =>
        have hd0 : lookupR r0 d = none := by
          cases hd0 : lookupR r0 d with
          | none => rfl
          | some v => exact absurd (hext.1 d v hd0) (by rw [hd]; simp)
        have hb : bracketGet r d = (none, r ++ [(d, none)]) := by simp [bracketGet, hd]
        rw [hb] at hrun
        obtain ⟨ps, hps, hlen, hmap⟩ :=
          ih _ ds depth out r' (hext.trans (nullExt_append_null r d hd)) hrun
        refine ⟨ps, ?_, hlen, hmap⟩
        have hstep : depPaths (n + 1) r0 (d :: ds) = depPaths n r0 ds := by
          rw [show depPaths (n + 1) r0 (d :: ds) =
            (match lookupR r0 d with
              | some (some next) =>
                match depPaths n r0 next.depends with
                | none => none
                | some ps1 =>
                  match depPaths n r0 ds with
                  | none => none
                  | some ps2 => some (([d] :: ps1.map (fun p => d :: p)) ++ ps2)
              | _ => depPaths n r0 ds) from rfl, hd0]
        rw [hstep]
        exact hps
      | some v0 =>
        cases v0 with
        | none =>
          have hd0 : ∀ c : Binary, lookupR r0 d ≠ some (some c) := by
            intro c hc
            have := (hext.descend d c).mpr hc
            rw [hd] at this
            cases this
          have hb : bracketGet r d = (none, r) := by simp [bracketGet, hd]
          rw [hb] at hrun
          obtain ⟨ps, hps, hlen, hmap⟩ := ih r ds depth out r' hext hrun
          refine ⟨ps, ?_, hlen, hmap⟩
          have hstep : depPaths (n + 1) r0 (d :: ds) = depPaths n r0 ds := by
            rw [show depPaths (n + 1) r0 (d :: ds) =
              (match lookupR r0 d with
                | some (some next) =>
                  match depPaths n r0 next.depends with
                  | none => none
                  | some ps1 =>
                    match depPaths n r0 ds with
                    | none => none
                    | some ps2 => some (([d] :: ps1.map (fun p => d :: p)) ++ ps2)
                | _ => depPaths n r0 ds) from rfl]
            cases hd0' : lookupR r0 d with
            | none => rfl
            | some w =>
              cases w with
              | none => rfl
              | some c => exact absurd hd0' (hd0 c)
          rw [hstep]
          exact hps
        | some next =>
          have hd0 : lookupR r0 d = some (some next) := (hext.descend d next).mp hd
          have hb : bracketGet r d = (some next, r) := by simp [bracketGet, hd]
          rw [hb] at hrun
          have hrun2 : (match treeGo n r next.depends (depth + 1) with
              | none => none
              | some (o1, r'') =>
                match treeGo n r'' ds depth with
                | none => none
                | some (o2, r3) => some (((depth + 1, next.name) :: o1) ++ o2, r3)) =
              some (out, r') := hrun
          cases hg1 : treeGo n r next.depends (depth + 1) with
          | none => rw [hg1] at hrun2; exact Option.noConfusion hrun2
          | some p1 =>
            obtain ⟨o1, r1⟩ := p1
            rw [hg1] at hrun2
            have hrun3 : (match treeGo n r1 ds depth with
                | none => none
                | some (o2, r3) => some (((depth + 1, next.name) :: o1) ++ o2, r3)) =
                some (out, r') := hrun2
            have hext1 := treeGo_nullExt r0 n r next.depends (depth + 1) o1 r1 hext hg1
            cases hg2 : treeGo n r1 ds depth with
            | none => rw [hg2] at hrun3; exact Option.noConfusion hrun3
            | some p2 =>
              obtain ⟨o2, r3⟩ := p2
              rw [hg2] at hrun3
              have h : some ((((depth + 1, next.name) :: o1) ++ o2), r3) = some (out, r') := hrun3
              injection h with h
              injection h with h1 h2
              subst h1
              obtain ⟨ps1, hps1, hlen1, hmap1⟩ :=
                ih r next.depends (depth + 1) o1 r1 hext hg1
              obtain ⟨ps2, hps2, hlen2, hmap2⟩ := ih r1 ds depth o2 r3 hext1 hg2
              refine ⟨([d] :: ps1.map (fun p => d :: p)) ++ ps2, ?_, ?_, ?_⟩
              · simp only [depPaths, hd0, hps1, hps2]
              · simp [hlen1, hlen2]
              · have hmm : (ps1.map (fun p => d :: p)).map
                    (fun p => depth + p.length) = ps1.map (fun p => (depth + 1) + p.length) := by
                  rw [List.map_map]
                  have : ((fun p : List String => depth + p.length) ∘ fun p => d :: p) =
                      fun p : List String => (depth + 1) + p.length := by
                    funext p
                    simp [Function.comp, List.length_cons]
                    omega
                  rw [this]
                simp only [List.map_append, List.map_cons, List.length_cons,
                  List.length_nil, hmm, hmap2, ← hmap1]

/-- Witness for the amended C9 at the concrete registry `regT`. -/
theorem treeGo_counts_paths_witness :
    ∃ ps, depPaths 10 regT ["/b", "/c"] = some ps ∧
      ([(1, "/b"), (2, "/d"), (1, "/c"), (2, "/b"), (3, "/d")] : List (Nat × String)).length =
        ps.length ∧
      ([(1, "/b"), (2, "/d"), (1, "/c"), (2, "/b"), (3, "/d")] : List (Nat × String)).map
          Prod.fst = ps.map (fun p => 0 + p.length) :=
  treeGo_counts_paths regT 10 regT ["/b", "/c"] 0
    [(1, "/b"), (2, "/d"), (1, "/c"), (2, "/b"), (3, "/d")] regT (NullExt.refl regT) rfl

/-! ### C3: failure tolerance inside one scan -/

/-- With recursion on, the dependency loop preserves every mapping already
present in the registry: recursive calls are made only for values that are
not yet keys, and (by `processFile_preserves` at the smaller fuel) such a
call only touches its own key and fresh keys. -/
theorem depLoop_preserves (pf : Registry → String → Option (Bool × Registry × List String))
    (hpf : ∀ r q res, pf r q = some res → containsKey r q = false →
      ∀ k v, k ≠ q → lookupR r k = some v → lookupR res.2.1 k = some v) :
    ∀ syms r res, depLoop pf true r syms = some res →
      ∀ k v, lookupR r k = some v → lookupR res.1 k = some v := by
  intro syms
  induction syms with
  | nil =>
    intro r res h k v hv
    have h2 : (some (r, ([] : List String)) : Option (Registry × List String)) = some res := h
    injection h2 with h2
    rw [← h2]
    exact hv
  | cons sym rest ih =>
    intro r res h k v hv
    have hstep : depLoop pf true r (sym :: rest) =
        (if startsWithSlash sym = false then depLoop pf true r rest
         else if containsKey r sym then depLoop pf true r rest
         else
           match pf r sym with
           | none => none
           | some (_, r', clog) =>
             match depLoop pf true r' rest with
             | none => none
             | some (r'', log) => some (r'', clog ++ log)) := rfl
    rw [hstep] at h
    by_cases h1 : startsWithSlash sym = false
    · rw [if_pos h1] at h
      exact ih r res h k v hv
    · rw [if_neg h1] at h
      by_cases h2 : containsKey r sym
      · rw [if_pos h2] at h
        exact ih r res h k v hv
      · rw [if_neg h2] at h
        cases hq : pf r sym with
        | none => rw [hq] at h; exact Option.noConfusion h
        | some t =>
          obtain ⟨b, r2, clog⟩ := t
          rw [hq] at h
          have hksym : k ≠ sym := by
            intro hk
            subst hk
            rw [containsKey, hv] at h2
            simp at h2
          have hv2 : lookupR r2 k = some v :=
            hpf r sym (b, r2, clog) hq (by simpa using h2) k v hksym hv
          have h3 : (match depLoop pf true r2 rest with
              | none => none
              | some (r'', log) => some (r'', clog ++ log)) = some res := h
          cases hdl : depLoop pf true r2 rest with
          | none => rw [hdl] at h3; exact Option.noConfusion h3
          | some t2 =>
            obtain ⟨r3, log⟩ := t2
            rw [hdl] at h3
            have h4 : (some ((r3 : Registry), clog ++ log) : Option (Registry × List String)) =
                some res := h3
            injection h4 with h4
            rw [← h4]
            exact ih r2 (r3, log) hdl k v hv2

/-- With recursion on, one `process_file` activation never changes the
mapping of a key other than its own `file`. -/
theorem processFile_preserves (fs : Fs) (cfg : Config) (hrec : cfg.recurse = true) :
    ∀ n r p res, processFile fs cfg n r p = some res →
      ∀ k v, k ≠ p → lookupR r k = some v → lookupR res.2.1 k = some v := by
  intro n
  induction n with
  | zero => intro r p res h; exact absurd h (by simp [processFile])
  | succ n ih =>
    intro r p res h k v hkp hv
    cases hview : fs.view p with
    | noFile =>
      have h2 : (some (false, r, [p]) : Option (Bool × Registry × List String)) = some res := by
        rw [← h]
        show _ = processFile fs cfg (n + 1) r p
        rw [show processFile fs cfg (n + 1) r p =
          (match fs.view p with
            | .noFile => some (false, r, [p])
            | .notElf => some (false, r, [p])
            | .elf sections =>
              match scanSections sections with
              | none => some (false, r, [p])
              | some (ds, rs, scanOk) =>
                let combined := cfg.origRpath ++ rs
                let rds := ds.map (fun d => resolve_symbol fs.fsExists d combined cfg.pfx)
                let r1 := insertR r p (some ⟨p, rds, rs⟩)
                match depLoop (processFile fs cfg n) cfg.recurse r1 rds with
                | none => none
                | some (r2, log) => some (scanOk, r2, p :: log)) from rfl, hview]
      injection h2 with h2
      rw [← h2]
      exact hv
    | notElf =>
      have h2 : (some (false, r, [p]) : Option (Bool × Registry × List String)) = some res := by
        rw [← h]
        show _ = processFile fs cfg (n + 1) r p
        rw [show processFile fs cfg (n + 1) r p =
          (match fs.view p with
            | .noFile => some (false, r, [p])
            | .notElf => some (false, r, [p])
            | .elf sections =>
              match scanSections sections with
              | none => some (false, r, [p])
              | some (ds, rs, scanOk) =>
                let combined := cfg.origRpath ++ rs
                let rds := ds.map (fun d => resolve_symbol fs.fsExists d combined cfg.pfx)
                let r1 := insertR r p (some ⟨p, rds, rs⟩)
                match depLoop (processFile fs cfg n) cfg.recurse r1 rds with
                | none => none
                | some (r2, log) => some (scanOk, r2, p :: log)) from rfl, hview]
      injection h2 with h2
      rw [← h2]
      exact hv
    | elf sections =>
      have hun : processFile fs cfg (n + 1) r p =
          (match scanSections sections with
            | none => some (false, r, [p])
            | some (ds, rs, scanOk) =>
              let rds := ds.map
                (fun d => resolve_symbol fs.fsExists d (cfg.origRpath ++ rs) cfg.pfx)
              match depLoop (processFile fs cfg n) cfg.recurse
                  (insertR r p (some ⟨p, rds, rs⟩)) rds with
              | none => none
              | some (r2, log) => some (scanOk, r2, p :: log)) := by
        rw [show processFile fs cfg (n + 1) r p =
          (match fs.view p with
            | .noFile => some (false, r, [p])
            | .notElf => some (false, r, [p])
            | .elf sections =>
              match scanSections sections with
              | none => some (false, r, [p])
              | some (ds, rs, scanOk) =>
                let combined := cfg.origRpath ++ rs
                let rds := ds.map (fun d => resolve_symbol fs.fsExists d combined cfg.pfx)
                let r1 := insertR r p (some ⟨p, rds, rs⟩)
                match depLoop (processFile fs cfg n) cfg.recurse r1 rds with
                | none => none
                | some (r2, log) => some (scanOk, r2, p :: log)) from rfl, hview]
      rw [hun] at h
      cases hscan : scanSections sections with
      | none =>
        rw [hscan] at h
        have h2 : (some (false, r, [p]) : Option (Bool × Registry × List String)) = some res := h
        injection h2 with h2
        rw [← h2]
        exact hv
      | some t =>
        obtain ⟨ds, rs, scanOk⟩ := t
        rw [hscan] at h
        have h3 : (match depLoop (processFile fs cfg n) cfg.recurse
            (insertR r p (some ⟨p,
              ds.map (fun d => resolve_symbol fs.fsExists d (cfg.origRpath ++ rs) cfg.pfx),
              rs⟩))
            (ds.map (fun d => resolve_symbol fs.fsExists d (cfg.origRpath ++ rs) cfg.pfx)) with
          | none => none
          | some (r2, log) => some (scanOk, r2, p :: log)) = some res := h
        rw [hrec] at h3
        cases hdl : depLoop (processFile fs cfg n) true
            (insertR r p (some ⟨p,
              ds.map (fun d => resolve_symbol fs.fsExists d (cfg.origRpath ++ rs) cfg.pfx),
              rs⟩))
            (ds.map (fun d => resolve_symbol fs.fsExists d (cfg.origRpath ++ rs) cfg.pfx)) with
        | none => rw [hdl] at h3; exact Option.noConfusion h3
        | some t2 =>
          obtain ⟨r2, log⟩ := t2
          rw [hdl] at h3
          have h4 : (some (scanOk, r2, p :: log) : Option (Bool × Registry × List String)) =
              some res := h3
          injection h4 with h4
          rw [← h4]
          have hv1 : lookupR (insertR r p (some ⟨p,
              ds.map (fun d => resolve_symbol fs.fsExists d (cfg.origRpath ++ rs) cfg.pfx),
              rs⟩)) k = some v := by
            rw [lookupR_insertR_ne _ _ _ _ hkp]
            exact hv
          exact depLoop_preserves (processFile fs cfg n)
            (fun r q res2 hq _ k2 v2 hk2 hv2 => ih r q res2 hq k2 v2 hk2 hv2)
            _ _ (r2, log) hdl k v hv1

/-- One-step unfolding of `processFile` at successor fuel. -/
theorem processFile_succ (fs : Fs) (cfg : Config) (n : Nat) (r : Registry) (p : String) :
    processFile fs cfg (n + 1) r p =
      (match fs.view p with
        | .noFile => some (false, r, [p])
        | .notElf => some (false, r, [p])
        | .elf sections =>
          match scanSections sections with
          | none => some (false, r, [p])
          | some (ds, rs, scanOk) =>
            let rds := ds.map
              (fun d => resolve_symbol fs.fsExists d (cfg.origRpath ++ rs) cfg.pfx)
            match depLoop (processFile fs cfg n) cfg.recurse
                (insertR r p (some ⟨p, rds, rs⟩)) rds with
            | none => none
            | some (r2, log) => some (scanOk, r2, p :: log)) := rfl

/-- C3 (the code contradicts the claim).  A section whose header read fails
(`gelf_getshdr` returning null, line 149) makes `process_file` jump to
`err1` before the insertion at line 162: the file `/f` is opened and
validated as an ELF (steps 1-2 succeed), its scan fails in step 3, and no
record is inserted — the returned registry is still empty. -/
theorem section_header_failure_registers_nothing :
    fsShdr.view "/f" = .elf [.shdrFail] ∧
    processFile fsShdr {} 5 [] "/f" = some (false, [], ["/f"]) ∧
    lookupR ([] : Registry) "/f" = none :=
  ⟨rfl, rfl, rfl⟩

/-- C3 (amended).  Once a file is opened, validated and its section headers
all read (no `shdrFail`), the record is inserted under the original path
key regardless of failures while reading the dynamic sections themselves:
the returned boolean is exactly the scan result (false iff some dynamic
section had an unreadable header, entries of the other sections being
kept), and the final registry maps the path to the record holding all
collected entries, with dependencies resolved in place.  (A failure on one
dynamic entry, `ScanResult.truncated`, keeps the entries already read and
does not even mark the file failed.) -/
theorem c3_scan_failure_still_registers (fs : Fs) (cfg : Config) (hrec : cfg.recurse = true)
    (n : Nat) (r : Registry) (file : String) (sections : List Section)
    (ds rs : List String) (scanOk ok : Bool) (r' : Registry) (log : List String)
    (hview : fs.view file = .elf sections)
    (hscan : scanSections sections = some (ds, rs, scanOk))
    (hrun : processFile fs cfg (n + 1) r file = some (ok, r', log)) :
    ok = scanOk ∧
    lookupR r' file = some (some ⟨file,
      ds.map (fun d => resolve_symbol fs.fsExists d (cfg.origRpath ++ rs) cfg.pfx), rs⟩) := by
  rw [processFile_succ, hview] at hrun
  have hrun1 : (match scanSections sections with
    | none => some (false, r, [file])
    | some (ds, rs, scanOk) =>
      let rds := ds.map (fun d => resolve_symbol fs.fsExists d (cfg.origRpath ++ rs) cfg.pfx)
      match depLoop (processFile fs cfg n) cfg.recurse
          (insertR r file (some ⟨file, rds, rs⟩)) rds with
      | none => none
      | some (r2, log) => some (scanOk, r2, file :: log)) = some (ok, r', log) := hrun
  rw [hscan] at hrun1
  have h3 : (match depLoop (processFile fs cfg n) cfg.recurse
      (insertR r file (some ⟨file,
        ds.map (fun d => resolve_symbol fs.fsExists d (cfg.origRpath ++ rs) cfg.pfx), rs⟩))
      (ds.map (fun d => resolve_symbol fs.fsExists d (cfg.origRpath ++ rs) cfg.pfx)) with
    | none => none
    | some (r2, log) => some (scanOk, r2, file :: log)) = some (ok, r', log) := hrun1
  rw [hrec] at h3
  cases hdl : depLoop (processFile fs cfg n) true
      (insertR r file (some ⟨file,
        ds.map (fun d => resolve_symbol fs.fsExists d (cfg.origRpath ++ rs) cfg.pfx), rs⟩))
      (ds.map (fun d => resolve_symbol fs.fsExists d (cfg.origRpath ++ rs) cfg.pfx)) with
  | none => rw [hdl] at h3; exact Option.noConfusion h3
  | some t =>
    obtain ⟨r2, lg⟩ := t
    rw [hdl] at h3
    have h4 : (some (scanOk, r2, file :: lg) : Option (Bool × Registry × List String)) =
        some (ok, r', log) := h3
    injection h4 with h4
    injection h4 with h4a h4b
    injection h4b with h4b h4c
    refine ⟨h4a.symm, ?_⟩
    rw [← h4b]
    exact depLoop_preserves (processFile fs cfg n)
      (fun rr q res2 hq _ k2 v2 hk2 hv2 =>
        processFile_preserves fs cfg hrec n rr q res2 hq k2 v2 hk2 hv2)
      _ _ (r2, lg) hdl file _ (lookupR_insertR_self _ _ _)

/-- Witness for the amended C3: `/f` is marked failed because of the bad
header, yet its record (with the entry collected from the second section)
is registered. -/
theorem c3_scan_failure_still_registers_witness :
    ({} : Config).recurse = true ∧
    fsBadHeader.view "/f" = .elf [.dynamic .badHeader, .dynamic (.ok [.needed "x"])] ∧
    scanSections [.dynamic .badHeader, .dynamic (.ok [.needed "x"])] = some (["x"], [], false) ∧
    processFile fsBadHeader {} 5 [] "/f" =
      some (false, [("/f", some ⟨"/f", ["x"], []⟩)], ["/f"]) ∧
    ((false : Bool) = false ∧
      lookupR [("/f", some ⟨"/f", ["x"], []⟩)] "/f" = some (some ⟨"/f",
        (["x"] : List String).map (fun d => resolve_symbol fsBadHeader.fsExists d
          (({} : Config).origRpath ++ []) ({} : Config).pfx), []⟩)) :=
  ⟨rfl, rfl, rfl, rfl,
    c3_scan_failure_still_registers fsBadHeader {} rfl 4 [] "/f"
      [.dynamic .badHeader, .dynamic (.ok [.needed "x"])] ["x"] [] false false
      [("/f", some ⟨"/f", ["x"], []⟩)] ["/f"] rfl rfl rfl⟩

/-! ### C8: skeleton records with recursion disabled -/

/-- With recursion off, the dependency loop registers a skeleton record for
every resolved value, unconditionally overwriting whatever the registry held
for that key, and touches nothing else. -/
theorem depLoop_skeleton (pf : Registry → String → Option (Bool × Registry × List String)) :
    ∀ syms r, ∃ r', depLoop pf false r syms = some (r', []) ∧
      ∀ q, lookupR r' q = if q ∈ syms then some (some ⟨q, [], []⟩) else lookupR r q := by
  intro syms
  induction syms with
  | nil => intro r; exact ⟨r, rfl, fun q => by simp⟩
  | cons sym rest ih =>
    intro r
    obtain ⟨r', hdl, hchar⟩ := ih (insertR r sym (some ⟨sym, [], []⟩))
    refine ⟨r', hdl, ?_⟩
    intro q
    rw [hchar q]
    by_cases hq : q ∈ rest
    · simp [hq]
    · by_cases hqs : q = sym
      · subst hqs
        simp [hq, lookupR_insertR_self]
      · simp [hq, hqs, lookupR_insertR_ne r sym q _ hqs]

/-- C8 (amended).  With recursion disabled, after a registered scan every
dependency entry of the file (under its resolved-or-unchanged value) maps
to a freshly registered empty placeholder record — registered
unconditionally, whether or not a registry entry for that value already
existed (line 192 performs no presence check, so an existing record is
overwritten). -/
theorem c8_skeletons_for_every_dep (fs : Fs) (cfg : Config) (hrec : cfg.recurse = false)
    (n : Nat) (r : Registry) (file : String) (sections : List Section)
    (ds rs : List String) (scanOk ok : Bool) (r' : Registry) (log : List String)
    (hview : fs.view file = .elf sections)
    (hscan : scanSections sections = some (ds, rs, scanOk))
    (hrun : processFile fs cfg (n + 1) r file = some (ok, r', log)) :
    ∀ d ∈ ds, lookupR r' (resolve_symbol fs.fsExists d (cfg.origRpath ++ rs) cfg.pfx) =
      some (some ⟨resolve_symbol fs.fsExists d (cfg.origRpath ++ rs) cfg.pfx, [], []⟩) := by
  rw [processFile_succ, hview] at hrun
  have hrun1 : (match scanSections sections with
    | none => some (false, r, [file])
    | some (ds, rs, scanOk) =>
      let rds := ds.map (fun d => resolve_symbol fs.fsExists d (cfg.origRpath ++ rs) cfg.pfx)
      match depLoop (processFile fs cfg n) cfg.recurse
          (insertR r file (some ⟨file, rds, rs⟩)) rds with
      | none => none
      | some (r2, log) => some (scanOk, r2, file :: log)) = some (ok, r', log) := hrun
  rw [hscan] at hrun1
  have h3 : (match depLoop (processFile fs cfg n) cfg.recurse
      (insertR r file (some ⟨file,
        ds.map (fun d => resolve_symbol fs.fsExists d (cfg.origRpath ++ rs) cfg.pfx), rs⟩))
      (ds.map (fun d => resolve_symbol fs.fsExists d (cfg.origRpath ++ rs) cfg.pfx)) with
    | none => none
    | some (r2, log) => some (scanOk, r2, file :: log)) = some (ok, r', log) := hrun1
  rw [hrec] at h3
  obtain ⟨r2, hdl, hchar⟩ := depLoop_skeleton (processFile fs cfg n)
    (ds.map (fun d => resolve_symbol fs.fsExists d (cfg.origRpath ++ rs) cfg.pfx))
    (insertR r file (some ⟨file,
      ds.map (fun d => resolve_symbol fs.fsExists d (cfg.origRpath ++ rs) cfg.pfx), rs⟩))
  rw [hdl] at h3
  have h4 : (some (scanOk, r2, [file]) : Option (Bool × Registry × List String)) =
      some (ok, r', log) := h3
  injection h4 with h4
  injection h4 with h4a h4b
  injection h4b with h4b h4c
  intro d hd
  rw [← h4b, hchar]
  have hmem : resolve_symbol fs.fsExists d (cfg.origRpath ++ rs) cfg.pfx ∈
      ds.map (fun d => resolve_symbol fs.fsExists d (cfg.origRpath ++ rs) cfg.pfx) :=
    List.mem_map_of_mem _ hd
  simp [hmem]

/-- C8 (the code contradicts the "only if absent" half of the claim).  With
recursion disabled, processing `/g` first registers its full record (with
its dependency list), and processing `/f` afterwards overwrites that
existing record with an empty skeleton when it registers a placeholder for
its dependency value `/g` — no presence check is performed. -/
theorem skeleton_overwrites_existing_record :
    processFile fsC8 cfgNoRec 5 [] "/g" =
      some (true, [("/g", some ⟨"/g", ["/x"], []⟩), ("/x", some ⟨"/x", [], []⟩)], ["/g"]) ∧
    processFile fsC8 cfgNoRec 5
        [("/g", some ⟨"/g", ["/x"], []⟩), ("/x", some ⟨"/x", [], []⟩)] "/f" =
      some (true, [("/g", some ⟨"/g", [], []⟩), ("/x", some ⟨"/x", [], []⟩),
        ("/f", some ⟨"/f", ["/g"], []⟩)], ["/f"]) ∧
    lookupR [("/g", some ⟨"/g", ["/x"], []⟩), ("/x", some ⟨"/x", [], []⟩)] "/g" =
      some (some ⟨"/g", ["/x"], []⟩) :=
  ⟨rfl, rfl, rfl⟩

/-- Witness for the amended C8 at the `/f` call of
`skeleton_overwrites_existing_record`. -/
theorem c8_skeletons_for_every_dep_witness :
    cfgNoRec.recurse = false ∧
    ∀ d ∈ (["/g"] : List String),
      lookupR [("/g", some ⟨"/g", [], []⟩), ("/x", some ⟨"/x", [], []⟩),
          ("/f", some ⟨"/f", ["/g"], []⟩)]
        (resolve_symbol fsC8.fsExists d (cfgNoRec.origRpath ++ []) cfgNoRec.pfx) =
      some (some ⟨resolve_symbol fsC8.fsExists d (cfgNoRec.origRpath ++ []) cfgNoRec.pfx,
        [], []⟩) :=
  ⟨rfl, c8_skeletons_for_every_dep fsC8 cfgNoRec rfl 4
    [("/g", some ⟨"/g", ["/x"], []⟩), ("/x", some ⟨"/x", [], []⟩)] "/f"
    [.dynamic (.ok [.needed "/g"])] ["/g"] [] true true
    [("/g", some ⟨"/g", [], []⟩), ("/x", some ⟨"/x", [], []⟩), ("/f", some ⟨"/f", ["/g"], []⟩)]
    ["/f"] rfl rfl rfl⟩

/-! ### C5: how often a path gets parsed -/

theorem containsKey_insertR_of (r : Registry) (p k : String) (v : Option Binary)
    (h : containsKey r k = true) : containsKey (insertR r p v) k = true := by
  by_cases hkp : k = p
  · subst hkp
    rw [containsKey, lookupR_insertR_self]
    rfl
  · rw [containsKey, lookupR_insertR_ne r p k v hkp]
    exact h

theorem containsKey_insertR_self (r : Registry) (p : String) (v : Option Binary) :
    containsKey (insertR r p v) p = true := by
  rw [containsKey, lookupR_insertR_self]
  rfl

/-- With recursion on, the dependency loop parses (invokes `pf` on) only
values that are not yet registry keys; given that each such call parses a
registrable path at most once and registers it, the whole loop parses each
registrable path at most once, never parses an already-registered one, and
registers every registrable path it parsed. -/
theorem depLoop_parse_inv (fs : Fs)
    (pf : Registry → String → Option (Bool × Registry × List String))
    (hpf : ∀ r q ok r' log, pf r q = some (ok, r', log) →
      (∀ k, containsKey r k = true → containsKey r' k = true) ∧
      ∀ w, registrable fs w = true →
        ((w ≠ q → containsKey r w = true → log.count w = 0) ∧ log.count w ≤ 1 ∧
         (1 ≤ log.count w → containsKey r' w = true))) :
    ∀ syms r r2 log, depLoop pf true r syms = some (r2, log) →
      (∀ k, containsKey r k = true → containsKey r2 k = true) ∧
      ∀ w, registrable fs w = true →
        ((containsKey r w = true → log.count w = 0) ∧ log.count w ≤ 1 ∧
         (1 ≤ log.count w → containsKey r2 w = true)) := by
  intro syms
  induction syms with
  | nil =>
    intro r r2 log h
    have h2 : (some (r, ([] : List String)) : Option (Registry × List String)) =
        some (r2, log) := h
    injection h2 with h2
    injection h2 with h2a h2b
    subst h2a; subst h2b
    exact ⟨fun _ hk => hk, fun w _ => ⟨fun _ => by simp, by simp, by simp⟩⟩
  | cons sym rest ih =>
    intro r r2 log h
    have hstep : depLoop pf true r (sym :: rest) =
        (if startsWithSlash sym = false then depLoop pf true r rest
         else if containsKey r sym then depLoop pf true r rest
         else
           match pf r sym with
           | none => none
           | some (_, r', clog) =>
             match depLoop pf true r' rest with
             | none => none
             | some (r'', log) => some (r'', clog ++ log)) := rfl
    rw [hstep] at h
    by_cases h1 : startsWithSlash sym = false
    · rw [if_pos h1] at h
      exact ih r r2 log h
    · rw [if_neg h1] at h
      by_cases h2 : containsKey r sym
      · rw [if_pos h2] at h
        exact ih r r2 log h
      · rw [if_neg h2] at h
        cases hq : pf r sym with
        | none => rw [hq] at h; exact Option.noConfusion h
        | some t =>
          obtain ⟨b, rr, clog⟩ := t
          rw [hq] at h
          have h3 : (match depLoop pf true rr rest with
              | none => none
              | some (r'', log) => some (r'', clog ++ log)) = some (r2, log) := h
          cases hdl : depLoop pf true rr rest with
          | none => rw [hdl] at h3; exact Option.noConfusion h3
          | some t2 =>
            obtain ⟨r3, log2⟩ := t2
            rw [hdl] at h3
            have h4 : (some ((r3 : Registry), clog ++ log2) : Option (Registry × List String)) =
                some (r2, log) := h3
            injection h4 with h4
            injection h4 with h4a h4b
            subst h4a; subst h4b
            obtain ⟨hmon1, hcnt1⟩ := hpf r sym b rr clog hq
            obtain ⟨hmon2, hcnt2⟩ := ih rr r3 log2 hdl
            refine ⟨fun k hk => hmon2 k (hmon1 k hk), ?_⟩
            intro w hw
            obtain ⟨hc1a, hc1b, hc1c⟩ := hcnt1 w hw
            obtain ⟨hc2a, hc2b, hc2c⟩ := hcnt2 w hw
            rw [List.count_append]
            by_cases hkw : containsKey r w = true
            · have hwsym : w ≠ sym := by
                intro hws
                subst hws
                exact h2 hkw
              have e1 : clog.count w = 0 := hc1a hwsym hkw
              have e2 : log2.count w = 0 := hc2a (hmon1 w hkw)
              rw [e1, e2]
              exact ⟨fun _ => rfl, by simp, fun _ => hmon2 w (hmon1 w hkw)⟩
            · rcases Nat.lt_or_ge (clog.count w) 1 with hlt | hge
              · have e1 : clog.count w = 0 := Nat.lt_one_iff.mp hlt
                rw [e1, Nat.zero_add]
                exact ⟨fun hcw => absurd hcw hkw, hc2b, hc2c⟩
              · have e1 : clog.count w = 1 := le_antisymm hc1b hge
                have hkw2 : containsKey rr w = true := hc1c (by rw [e1])
                have e2 : log2.count w = 0 := hc2a hkw2
                rw [e1, e2]
                exact ⟨fun hcw => absurd hcw hkw, by simp, fun _ => hmon2 w hkw2⟩

/-- C5 (amended).  What the memoization guard actually guarantees, with
recursion enabled: within one `process_file` invocation every registrable
path is parsed at most once, a registrable path other than the own argument
of the invocation that is already a registry key is never parsed, and every
registrable path that was parsed ends up registered.  (The own argument of
the invocation is parsed unconditionally — so a path given as a top-level
argument more than once is parsed once per occurrence, see
`duplicate_toplevel_input_reparsed` — and paths that fail before the
registration point may be re-parsed.) -/
theorem processFile_parse_once (fs : Fs) (cfg : Config) (hrec : cfg.recurse = true) :
    ∀ n r p ok r' log, processFile fs cfg n r p = some (ok, r', log) →
      (∀ k, containsKey r k = true → containsKey r' k = true) ∧
      ∀ q, registrable fs q = true →
        ((q ≠ p → containsKey r q = true → log.count q = 0) ∧ log.count q ≤ 1 ∧
         (1 ≤ log.count q → containsKey r' q = true)) := by
  intro n
  induction n with
  | zero => intro r p ok r' log h; exact absurd h (by simp [processFile])
  | succ n ih =>
    intro r p ok r' log h
    rw [processFile_succ] at h
    cases hview : fs.view p with
    | noFile =>
      rw [hview] at h
      have h2 : (some (false, r, [p]) : Option (Bool × Registry × List String)) =
          some (ok, r', log) := h
      injection h2 with h2
      injection h2 with h2a h2b
      injection h2b with h2b h2c
      subst h2b; subst h2c
      refine ⟨fun _ hk => hk, ?_⟩
      intro q hq
      by_cases hqp : q = p
      · subst hqp
        rw [registrable, hview] at hq
        exact absurd hq (by simp)
      · have e : ([p].count q) = 0 := by
          simp [List.count_cons, hqp]
        rw [e]
        exact ⟨fun _ _ => rfl, by simp, by simp⟩
    | notElf =>
      rw [hview] at h
      have h2 : (some (false, r, [p]) : Option (Bool × Registry × List String)) =
          some (ok, r', log) := h
      injection h2 with h2
      injection h2 with h2a h2b
      injection h2b with h2b h2c
      subst h2b; subst h2c
      refine ⟨fun _ hk => hk, ?_⟩
      intro q hq
      by_cases hqp : q = p
      · subst hqp
        rw [registrable, hview] at hq
        exact absurd hq (by simp)
      · have e : ([p].count q) = 0 := by
          simp [List.count_cons, hqp]
        rw [e]
        exact ⟨fun _ _ => rfl, by simp, by simp⟩
    | elf sections =>
      rw [hview] at h
      have h1 : (match scanSections sections with
        | none => some (false, r, [p])
        | some (ds, rs, scanOk) =>
          let rds := ds.map (fun d => resolve_symbol fs.fsExists d (cfg.origRpath ++ rs) cfg.pfx)
          match depLoop (processFile fs cfg n) cfg.recurse
              (insertR r p (some ⟨p, rds, rs⟩)) rds with
          | none => none
          | some (r2, log) => some (scanOk, r2, p :: log)) = some (ok, r', log) := h
      cases hscan : scanSections sections with
      | none =>
        rw [hscan] at h1
        have h2 : (some (false, r, [p]) : Option (Bool × Registry × List String)) =
            some (ok, r', log) := h1
        injection h2 with h2
        injection h2 with h2a h2b
        injection h2b with h2b h2c
        subst h2b; subst h2c
        refine ⟨fun _ hk => hk, ?_⟩
        intro q hq
        by_cases hqp : q = p
        · subst hqp
          rw [registrable, hview] at hq
          have hq2 : (scanSections sections).isSome = true := hq
          rw [hscan] at hq2
          exact absurd hq2 (by simp)
        · have e : ([p].count q) = 0 := by
            simp [List.count_cons, hqp]
          rw [e]
          exact ⟨fun _ _ => rfl, by simp, by simp⟩
      | some t =>
        obtain ⟨ds, rs, scanOk⟩ := t
        rw [hscan] at h1
        have h3 : (match depLoop (processFile fs cfg n) cfg.recurse
            (insertR r p (some ⟨p,
              ds.map (fun d => resolve_symbol fs.fsExists d (cfg.origRpath ++ rs) cfg.pfx),
              rs⟩))
            (ds.map (fun d => resolve_symbol fs.fsExists d (cfg.origRpath ++ rs) cfg.pfx)) with
          | none => none
          | some (r2, log) => some (scanOk, r2, p :: log)) = some (ok, r', log) := h1
        rw [hrec] at h3
        cases hdl : depLoop (processFile fs cfg n) true
            (insertR r p (some ⟨p,
              ds.map (fun d => resolve_symbol fs.fsExists d (cfg.origRpath ++ rs) cfg.pfx),
              rs⟩))
            (ds.map (fun d => resolve_symbol fs.fsExists d (cfg.origRpath ++ rs) cfg.pfx)) with
        | none => rw [hdl] at h3; exact Option.noConfusion h3
        | some t2 =>
          obtain ⟨r2, log2⟩ := t2
          rw [hdl] at h3
          have h4 : (some (scanOk, r2, p :: log2) : Option (Bool × Registry × List String)) =
              some (ok, r', log) := h3
          injection h4 with h4
          injection h4 with h4a h4b
          injection h4b with h4b h4c
          subst h4b; subst h4c
          obtain ⟨hmonD, hcntD⟩ := depLoop_parse_inv fs (processFile fs cfg n)
            (fun rr q ok2 rr2 lg hq2 => ih rr q ok2 rr2 lg hq2) _ _ r2 log2 hdl
          refine ⟨fun k hk => hmonD k (containsKey_insertR_of r p k _ hk), ?_⟩
          intro q hq
          obtain ⟨hcA, hcB, hcC⟩ := hcntD q hq
          by_cases hqp : q = p
          · subst hqp
            have hk1 : containsKey (insertR r q (some ⟨q,
                ds.map (fun d => resolve_symbol fs.fsExists d (cfg.origRpath ++ rs) cfg.pfx),
                rs⟩)) q = true := containsKey_insertR_self r q _
            have e2 : log2.count q = 0 := hcA hk1
            have e : ((q :: log2).count q) = 1 := by
              simp [List.count_cons, e2]
            rw [e]
            exact ⟨fun hne _ => absurd rfl hne, by simp, fun _ => hmonD q hk1⟩
          · have e : ((p :: log2).count q) = log2.count q := by
              simp [List.count_cons, hqp]
            rw [e]
            refine ⟨fun _ hkq => hcA (containsKey_insertR_of r p q _ hkq), hcB, hcC⟩

/-- C5 (the code contradicts the claim).  `main` never consults the
registry before calling `process_file` on a top-level operand, so the same
path given twice as a top-level argument is parsed (and registered) twice:
the process trace of the batch run on operands `/a /a` contains `/a`
twice. -/
theorem duplicate_toplevel_input_reparsed :
    registrable fsOne "/a" = true ∧
    runInputs fsOne {} 5 [] ["/a", "/a"] =
      some (2, 0, [("/a", some ⟨"/a", [], []⟩)], ["/a", "/a"]) ∧
    (["/a", "/a"] : List String).count "/a" = 2 :=
  ⟨rfl, rfl, rfl⟩

/-- Witness for the amended C5 at a concrete call. -/
theorem processFile_parse_once_witness :
    ({} : Config).recurse = true ∧
    ((∀ k, containsKey ([] : Registry) k = true →
        containsKey [("/a", some ⟨"/a", [], []⟩)] k = true) ∧
      ∀ q, registrable fsOne q = true →
        ((q ≠ "/a" → containsKey ([] : Registry) q = true →
            (["/a"] : List String).count q = 0) ∧
          (["/a"] : List String).count q ≤ 1 ∧
          (1 ≤ (["/a"] : List String).count q →
            containsKey [("/a", some ⟨"/a", [], []⟩)] q = true))) :=
  ⟨rfl, processFile_parse_once fsOne {} rfl 5 [] "/a" true
    [("/a", some ⟨"/a", [], []⟩)] ["/a"] rfl⟩

/-! ### C10: exit codes -/

/-- The boolean returned by `process_file` is a pure function of the oracle:
recursive results are discarded (line 185), so the registry plays no role
in it. -/
theorem processFile_ok_eq (fs : Fs) (cfg : Config) :
    ∀ n r p ok r' log, processFile fs cfg n r p = some (ok, r', log) →
      ok = !fileFails fs p := by
  intro n r p ok r' log h
  match n with
  | 0 => exact absurd h (by simp [processFile])
  | Nat.succ n =>
    rw [processFile_succ] at h
    cases hview : fs.view p with
    | noFile =>
      rw [hview] at h
      have h2 : (some (false, r, [p]) : Option (Bool × Registry × List String)) =
          some (ok, r', log) := h
      injection h2 with h2
      injection h2 with h2a h2b
      rw [← h2a, fileFails, hview]
      rfl
    | notElf =>
      rw [hview] at h
      have h2 : (some (false, r, [p]) : Option (Bool × Registry × List String)) =
          some (ok, r', log) := h
      injection h2 with h2
      injection h2 with h2a h2b
      rw [← h2a, fileFails, hview]
      rfl
    | elf sections =>
      rw [hview] at h
      have h1 : (match scanSections sections with
        | none => some (false, r, [p])
        | some (ds, rs, scanOk) =>
          let rds := ds.map (fun d => resolve_symbol fs.fsExists d (cfg.origRpath ++ rs) cfg.pfx)
          match depLoop (processFile fs cfg n) cfg.recurse
              (insertR r p (some ⟨p, rds, rs⟩)) rds with
          | none => none
          | some (r2, log) => some (scanOk, r2, p :: log)) = some (ok, r', log) := h
      have hff : fileFails fs p = (match scanSections sections with
          | none => true
          | some (_, _, sOk) => !sOk) := by
        rw [fileFails, hview]
      cases hscan : scanSections sections with
      | none =>
        rw [hscan] at h1
        have h2 : (some (false, r, [p]) : Option (Bool × Registry × List String)) =
            some (ok, r', log) := h1
        injection h2 with h2
        injection h2 with h2a h2b
        rw [← h2a, hff, hscan]
        rfl
      | some t =>
        obtain ⟨ds, rs, scanOk⟩ := t
        rw [hscan] at h1
        have h3 : (match depLoop (processFile fs cfg n) cfg.recurse
            (insertR r p (some ⟨p,
              ds.map (fun d => resolve_symbol fs.fsExists d (cfg.origRpath ++ rs) cfg.pfx),
              rs⟩))
            (ds.map (fun d => resolve_symbol fs.fsExists d (cfg.origRpath ++ rs) cfg.pfx)) with
          | none => none
          | some (r2, log) => some (scanOk, r2, p :: log)) = some (ok, r', log) := h1
        cases hdl : depLoop (processFile fs cfg n) cfg.recurse
            (insertR r p (some ⟨p,
              ds.map (fun d => resolve_symbol fs.fsExists d (cfg.origRpath ++ rs) cfg.pfx),
              rs⟩))
            (ds.map (fun d => resolve_symbol fs.fsExists d (cfg.origRpath ++ rs) cfg.pfx)) with
        | none => rw [hdl] at h3; exact Option.noConfusion h3
        | some t2 =>
          obtain ⟨r2, log2⟩ := t2
          rw [hdl] at h3
          have h4 : (some (scanOk, r2, p :: log2) : Option (Bool × Registry × List String)) =
              some (ok, r', log) := h3
          injection h4 with h4
          injection h4 with h4a h4b
          rw [← h4a, hff, hscan]
          simp

/-- The counters of the batch loop: `_done` is the number of operands and
`_failed` the number of operands whose scan fails. -/
theorem runInputs_counts (fs : Fs) (cfg : Config) (fuel : Nat) :
    ∀ inputs r d f r' log, runInputs fs cfg fuel r inputs = some (d, f, r', log) →
      d = inputs.length ∧ f = (inputs.filter (fun p => fileFails fs p)).length := by
  intro inputs
  induction inputs with
  | nil =>
    intro r d f r' log h
    have h2 : (some (0, 0, r, ([] : List String)) :
        Option (Nat × Nat × Registry × List String)) = some (d, f, r', log) := h
    injection h2 with h2
    injection h2 with h2a h2b
    injection h2b with h2b h2c
    subst h2a; subst h2b
    exact ⟨rfl, rfl⟩
  | cons name rest ih =>
    intro r d f r' log h
    have hstep : runInputs fs cfg fuel r (name :: rest) =
        (match processFile fs cfg fuel r name with
          | none => none
          | some (ok, r1, lg) =>
            let fail1 : Nat := if ok then 0 else 1
            match bracketGet r1 name with
            | (none, r2) =>
              match runInputs fs cfg fuel r2 rest with
              | none => none
              | some (d0, f0, rr, lg') => some (d0 + 1, f0 + fail1, rr, lg ++ lg')
            | (some bin, r2) =>
              let walked :=
                if cfg.tree then
                  match treeGo fuel r2 bin.depends 0 with
                  | none => none
                  | some (_, r3) => some r3
                else
                  match gatherGo fuel r2 bin.depends [] with
                  | none => none
                  | some (_, r3) => some r3
              match walked with
              | none => none
              | some r3 =>
                match runInputs fs cfg fuel r3 rest with
                | none => none
                | some (d0, f0, rr, lg') => some (d0 + 1, f0 + fail1, rr, lg ++ lg')) := rfl
    rw [hstep] at h
    cases hpf : processFile fs cfg fuel r name with
    | none => rw [hpf] at h; exact Option.noConfusion h
    | some t =>
      obtain ⟨ok, r1, lg⟩ := t
      rw [hpf] at h
      have hok : ok = !fileFails fs name := processFile_ok_eq fs cfg fuel r name ok r1 lg hpf
      have hfail : (if ok then (0 : Nat) else 1) = if fileFails fs name then 1 else 0 := by
        rw [hok]
        cases fileFails fs name <;> simp
      have hfin : ∀ d0 f0 rr lg', runInputs fs cfg fuel rr rest = some (d0, f0, rr, lg') →
          True := fun _ _ _ _ _ => trivial
      have hlen : ∀ d0 f0, d0 = rest.length →
          f0 = (rest.filter (fun p => fileFails fs p)).length →
          d0 + 1 = (name :: rest).length ∧
          f0 + (if ok then (0 : Nat) else 1) =
            ((name :: rest).filter (fun p => fileFails fs p)).length := by
        intro d0 f0 hd0 hf0
        constructor
        · rw [hd0]; rfl
        · rw [hf0, hfail, List.filter_cons]
          cases hc : fileFails fs name <;> simp
      have hx : (match bracketGet r1 name with
          | (none, r2) =>
            match runInputs fs cfg fuel r2 rest with
            | none => none
            | some (d0, f0, rr, lg') =>
              some (d0 + 1, f0 + (if ok then (0 : Nat) else 1), rr, lg ++ lg')
          | (some bin, r2) =>
            match (if cfg.tree then
                match treeGo fuel r2 bin.depends 0 with
                | none => none
                | some (_, r3) => some r3
              else
                match gatherGo fuel r2 bin.depends [] with
                | none => none
                | some (_, r3) => some r3) with
            | none => none
            | some r3 =>
              match runInputs fs cfg fuel r3 rest with
              | none => none
              | some (d0, f0, rr, lg') =>
                some (d0 + 1, f0 + (if ok then (0 : Nat) else 1), rr, lg ++ lg')) =
          some (d, f, r', log) := h
      cases hbr : bracketGet r1 name with
      | mk b r2 =>
        cases b with
        | none =>
          rw [hbr] at hx
          have hy : (match runInputs fs cfg fuel r2 rest with
            | none => none
            | some (d0, f0, rr, lg') =>
              some (d0 + 1, f0 + (if ok then (0 : Nat) else 1), rr, lg ++ lg')) =
              some (d, f, r', log) := hx
          cases hri : runInputs fs cfg fuel r2 rest with
          | none => rw [hri] at hy; exact Option.noConfusion hy
          | some t2 =>
            obtain ⟨d0, f0, rr, lg'⟩ := t2
            rw [hri] at hy
            have h4 : (some (d0 + 1, f0 + (if ok then (0 : Nat) else 1), rr, lg ++ lg') :
                Option (Nat × Nat × Registry × List String)) = some (d, f, r', log) := hy
            injection h4 with h4
            injection h4 with h4a h4b
            injection h4b with h4b h4c
            subst h4a; subst h4b
            obtain ⟨hd0, hf0⟩ := ih r2 d0 f0 rr lg' hri
            exact hlen d0 f0 hd0 hf0
        | some bin =>
          rw [hbr] at hx
          have h5 : (match (if cfg.tree then
                match treeGo fuel r2 bin.depends 0 with
                | none => none
                | some (_, r3) => some r3
              else
                match gatherGo fuel r2 bin.depends [] with
                | none => none
                | some (_, r3) => some r3) with
            | none => none
            | some r3 =>
              match runInputs fs cfg fuel r3 rest with
              | none => none
              | some (d0, f0, rr, lg') =>
                some (d0 + 1, f0 + (if ok then (0 : Nat) else 1), rr, lg ++ lg')) =
              some (d, f, r', log) := hx
          cases hw : (if cfg.tree then
              match treeGo fuel r2 bin.depends 0 with
              | none => none
              | some (_, r3) => some r3
            else
              match gatherGo fuel r2 bin.depends [] with
              | none => none
              | some (_, r3) => some r3) with
          | none => rw [hw] at h5; exact Option.noConfusion h5
          | some r3 =>
            rw [hw] at h5
            have h6 : (match runInputs fs cfg fuel r3 rest with
              | none => none
              | some (d0, f0, rr, lg') =>
                some (d0 + 1, f0 + (if ok then (0 : Nat) else 1), rr, lg ++ lg')) =
                some (d, f, r', log) := h5
            cases hri : runInputs fs cfg fuel r3 rest with
            | none => rw [hri] at h6; exact Option.noConfusion h6
            | some t2 =>
              obtain ⟨d0, f0, rr, lg'⟩ := t2
              rw [hri] at h6
              have h4 : (some (d0 + 1, f0 + (if ok then (0 : Nat) else 1), rr, lg ++ lg') :
                  Option (Nat × Nat × Registry × List String)) = some (d, f, r', log) := h6
              injection h4 with h4
              injection h4 with h4a h4b
              injection h4b with h4b h4c
              subst h4a; subst h4b
              obtain ⟨hd0, hf0⟩ := ih r3 d0 f0 rr lg' hri
              exact hlen d0 f0 hd0 hf0

/-- C10.  Exit-code selection: whenever the batch run returns, the exit code
is 1 on a getopt error or a missing operand, and otherwise 0 / 2 / 3
according to whether none / some-but-not-all / all operands failed — i.e.
`main` computes exactly the code described by `specExitCode`. -/
theorem exit_codes_match_spec (fs : Fs) (fuel : Nat) (args : List String) (c : Nat)
    (h : xplddMain fs fuel args = some c) : c = specExitCode fs args := by
  rw [xplddMain] at h
  rw [specExitCode]
  cases hp : parseArgs args {} [] with
  | none =>
    rw [hp] at h
    injection h with h
    exact h.symm
  | some t =>
    obtain ⟨cfg, inputs⟩ := t
    rw [hp] at h
    have h1 : (if inputs.isEmpty then (some 1 : Option Nat)
        else
          match runInputs fs cfg fuel [] inputs with
          | none => none
          | some (done, failed, _, _) =>
            some (if failed = done then 3 else if failed ≠ 0 then 2 else 0)) = some c := h
    show c = (if inputs = [] then 1
      else if (inputs.filter (fun p => fileFails fs p)).length = inputs.length then 3
      else if (inputs.filter (fun p => fileFails fs p)).length = 0 then 0 else 2)
    by_cases hemp : inputs.isEmpty
    · rw [if_pos hemp] at h1
      injection h1 with h1
      rw [if_pos (List.isEmpty_iff.mp hemp)]
      exact h1.symm
    · rw [if_neg hemp] at h1
      have hne : ¬ inputs = [] := fun he => hemp (by rw [he]; rfl)
      rw [if_neg hne]
      cases hri : runInputs fs cfg fuel [] inputs with
      | none => rw [hri] at h1; exact Option.noConfusion h1
      | some t2 =>
        obtain ⟨done, failed, rr, lg⟩ := t2
        rw [hri] at h1
        have h2 : (some (if failed = done then (3 : Nat) else if failed ≠ 0 then 2 else 0) :
            Option Nat) = some c := h1
        injection h2 with h2
        obtain ⟨hd, hf⟩ := runInputs_counts fs cfg fuel inputs [] done failed rr lg hri
        subst hd; subst hf
        rw [← h2]
        rcases eq_or_ne ((inputs.filter (fun p => fileFails fs p)).length)
            inputs.length with he | hne2
        · rw [if_pos he, if_pos he]
        · rw [if_neg hne2, if_neg hne2]
          rcases eq_or_ne ((inputs.filter (fun p => fileFails fs p)).length) 0 with h0 | h0
          · rw [if_neg (fun hx : _ ≠ 0 => hx h0), if_pos h0]
          · rw [if_pos h0, if_neg h0]

/-- Witness for C10: three operands, exactly one failing, exit code 2. -/
theorem exit_codes_match_spec_witness :
    xplddMain fs3 5 ["/ok1", "/bad", "/ok2"] = some 2 ∧
    2 = specExitCode fs3 ["/ok1", "/bad", "/ok2"] :=
  ⟨rfl, exit_codes_match_spec fs3 5 ["/ok1", "/bad", "/ok2"] 2 rfl⟩

end Xpldd
